import Mathlib

set_option autoImplicit false
set_option maxRecDepth 8000

/-!
Verification development for the Drupal `media` module's wysiwyg JavaScript
layer (`media.wysiwyg.instance.js` and `media.wysiwyg.utils.js`).  The
JavaScript sources are shallowly embedded: JS runtime values become the
mutual inductive `Media.Value`, JS objects become insertion-ordered
association structures (`Media.Fields`), the global `Drupal.settings.media`
configuration becomes `Media.MediaConfig`, and each method of
`Drupal.media.WysiwygInstance` becomes a Lean function over an explicit
instance state, returning `Except String` to model thrown string messages.
-/

namespace Media

mutual

/-- JS runtime value as it occurs in media token settings: `null`,
`undefined`, booleans, numbers (restricted to integers; the module's tokens
only carry integral numbers such as `fid`), strings, arrays and plain
objects. -/
inductive Value where
  | vNull
  | vUndef
  | vBool (b : Bool)
  | vNum (n : Int)
  | vStr (s : String)
  | vArr (es : ValueList)
  | vObj (fs : Fields)

/-- Elements of a JS array value, in index order. -/
inductive ValueList where
  | nil
  | cons (v : Value) (tl : ValueList)

/-- Own enumerable string-keyed properties of a JS object, in insertion
order.  The media token settings use only non-numeric property names, for
which JS enumeration order coincides with insertion order. -/
inductive Fields where
  | fnil
  | fcons (k : String) (v : Value) (tl : Fields)

end

/-- Property read `obj[key]`: value of the first entry with the given key
(`none` models `undefined` for a missing property). -/
def Fields.find? : Fields → String → Option Value
  | .fnil, _ => none
  | .fcons k v tl, key => if k = key then some v else tl.find? key

/-- Property write `obj[key] = val`: an existing property keeps its position
in enumeration order, a new property is appended at the end. -/
def Fields.set : Fields → String → Value → Fields
  | .fnil, key, val => .fcons key val .fnil
  | .fcons k v tl, key, val =>
    if k = key then .fcons k val tl else .fcons k v (tl.set key val)

/-- Property removal `delete obj[key]`. -/
def Fields.del : Fields → String → Fields
  | .fnil, _ => .fnil
  | .fcons k v tl, key => if k = key then tl.del key else .fcons k v (tl.del key)

/-- Property names in enumeration order (`Object.keys` / `for..in` over own
properties). -/
def Fields.keys : Fields → List String
  | .fnil => []
  | .fcons k _ tl => k :: tl.keys

/-- JS `String.prototype.startsWith`. -/
def strStartsWith (s pre : String) : Bool :=
  pre.data.isPrefixOf s.data

/-- Embeds `Drupal.media.utils.propertyStartsWith(needle, haystack)`: the
first own property of `haystack` whose name starts with `needle`, or `null`
(here `none`). -/
def propertyStartsWith (needle : String) (haystack : Fields) : Option String :=
  haystack.keys.find? (fun p => strStartsWith p needle)

/-- JS truthiness of a value (`NaN` is not modelled; numbers are integers). -/
def truthy : Value → Bool
  | .vNull => false
  | .vUndef => false
  | .vBool b => b
  | .vNum n => n != 0
  | .vStr s => s != ""
  | .vArr _ => true
  | .vObj _ => true

/-- JS truthiness of a property read, where a missing property is
`undefined` and hence falsy. -/
def truthyO : Option Value → Bool
  | none => false
  | some v => truthy v

/-! Basic lemmas about `Fields` operations. -/

/-- Structural induction principle for `Fields` alone (the `induction`
tactic does not directly handle the mutual inductive). -/
@[induction_eliminator]
theorem Fields.fieldsInduction {motive : Fields → Prop} (fnil : motive .fnil)
    (fcons : ∀ k v tl, motive tl → motive (.fcons k v tl)) :
    ∀ f, motive f
  | .fnil => fnil
  | .fcons k v tl => fcons k v tl (Fields.fieldsInduction fnil fcons tl)

theorem Fields.find?_set_self (f : Fields) (k : String) (v : Value) :
    (f.set k v).find? k = some v := by
  induction f with
  | fnil => simp [Fields.set, Fields.find?]
  | fcons k' v' tl ih =>
    by_cases h : k' = k <;> simp [Fields.set, Fields.find?, h, ih]

theorem Fields.find?_set_ne (f : Fields) (k k' : String) (v : Value)
    (h : k' ≠ k) : (f.set k v).find? k' = f.find? k' := by
  have hne : k ≠ k' := fun e => h e.symm
  induction f with
  | fnil => simp [Fields.set, Fields.find?, hne]
  | fcons k0 v0 tl ih =>
    by_cases h0 : k0 = k
    · subst h0
      simp [Fields.set, Fields.find?, hne]
    · simp [Fields.set, Fields.find?, h0, ih]

theorem Fields.keys_set_of_mem (f : Fields) (k : String) (v : Value)
    (h : k ∈ f.keys) : (f.set k v).keys = f.keys := by
  induction f with
  | fnil => simp [Fields.keys] at h
  | fcons k0 v0 tl ih =>
    by_cases h0 : k0 = k
    · simp [Fields.set, h0, Fields.keys]
    · simp [Fields.keys, h0] at h
      rcases h with h | h
      · exact absurd h.symm h0
      · simp [Fields.set, h0, Fields.keys, ih h]

theorem Fields.set_find?_self (f : Fields) (k : String) (v : Value)
    (h : f.find? k = some v) : f.set k v = f := by
  induction f with
  | fnil => simp [Fields.find?] at h
  | fcons k0 v0 tl ih =>
    by_cases h0 : k0 = k
    · simp [Fields.find?, h0] at h
      simp [Fields.set, h0, h]
    · simp [Fields.find?, h0] at h
      simp [Fields.set, h0, ih h]

theorem Fields.find?_eq_none_of_not_mem (f : Fields) (k : String)
    (h : k ∉ f.keys) : f.find? k = none := by
  induction f with
  | fnil => simp [Fields.find?]
  | fcons k0 v0 tl ih =>
    simp [Fields.keys] at h
    simp [Fields.find?, Ne.symm h.1, ih h.2]

theorem Fields.del_of_not_mem (f : Fields) (k : String)
    (h : k ∉ f.keys) : f.del k = f := by
  induction f with
  | fnil => simp [Fields.del]
  | fcons k0 v0 tl ih =>
    simp [Fields.keys] at h
    simp [Fields.del, Ne.symm h.1, ih h.2]

theorem Fields.mem_keys_of_find?_eq_some (f : Fields) (k : String) (v : Value)
    (h : f.find? k = some v) : k ∈ f.keys := by
  induction f with
  | fnil => simp [Fields.find?] at h
  | fcons k0 v0 tl ih =>
    by_cases h0 : k0 = k
    · simp [Fields.keys, h0]
    · simp [Fields.find?, h0] at h
      simp [Fields.keys, ih h]

theorem propertyStartsWith_keys_eq (needle : String) (f g : Fields)
    (h : f.keys = g.keys) :
    propertyStartsWith needle f = propertyStartsWith needle g := by
  simp [propertyStartsWith, h]

theorem propertyStartsWith_mem (needle : String) (f : Fields) (k : String)
    (h : propertyStartsWith needle f = some k) :
    k ∈ f.keys ∧ strStartsWith k needle = true := by
  have h1 := List.find?_some h
  have h2 := List.mem_of_find?_eq_some h
  exact ⟨h2, h1⟩

/-- A key that starts with `needle ++ "["` contains the character `[`. -/
theorem mem_lbracket_of_startsWith (needle k : String)
    (h : strStartsWith k (needle ++ "[") = true) : '[' ∈ k.data := by
  unfold strStartsWith at h
  have hpre : (needle ++ "[").data <+: k.data := by
    exact (List.isPrefixOf_iff_prefix).mp h
  have hmem : '[' ∈ (needle ++ "[").data := by
    have : (needle ++ "[").data = needle.data ++ ['['] := by
      simp [String.data_append]
    simp [this]
  exact hpre.subset hmem

/-! Embedding of `Drupal.media.utils.hashCode` (media.wysiwyg.utils.js).
JS strings are UTF-16: `charCodeAt` yields code units, so a string is first
mapped to its code-unit sequence. -/

/-- UTF-16 code units of a single character. -/
def utf16Units (c : Char) : List Nat :=
  let n := c.toNat
  if n < 0x10000 then [n]
  else [0xD800 + (n - 0x10000) / 0x400, 0xDC00 + (n - 0x10000) % 0x400]

/-- UTF-16 code units of a string, left to right. -/
def utf16CodeUnits (s : String) : List Nat :=
  s.data.foldr (fun c acc => utf16Units c ++ acc) []

/-- JS `ToInt32` conversion on exact integers. -/
def jsToInt32 (n : Int) : Int :=
  (n + 2 ^ 31) % 2 ^ 32 - 2 ^ 31

/-- One iteration of the `hashCode` loop:
`hash = ((hash << 5) - hash) + char; hash &= 0x7fffffff`.
`hash << 5` is `ToInt32(hash * 32)`; masking an int32 with `0x7fffffff`
keeps its low 31 bits, i.e. the Euclidean remainder modulo `2^31` (the
intermediate `ToInt32` of `&=` is absorbed because `2^31` divides `2^32`). -/
def hashStep (hash charCode : Nat) : Nat :=
  ((jsToInt32 (hash * 32) - hash + charCode) % (2 ^ 31 : Int)).toNat

/-- Embeds `Drupal.media.utils.hashCode(str)`: returns 0 for the empty
string, otherwise folds `hashStep` over the UTF-16 code units left to
right starting from 0. -/
def hashCode (s : String) : Nat :=
  if (utf16CodeUnits s).length = 0 then 0
  else (utf16CodeUnits s).foldl hashStep 0

theorem hashStep_le (h c : Nat) : hashStep h c ≤ 0x7fffffff := by
  unfold hashStep
  have e : (2 ^ 31 : Int) = 2147483648 := by norm_num
  rw [e]
  have h1 : 0 ≤ (jsToInt32 (h * 32) - h + c) % (2147483648 : Int) :=
    Int.emod_nonneg _ (by norm_num)
  have h2 : (jsToInt32 (h * 32) - h + c) % (2147483648 : Int) < 2147483648 :=
    Int.emod_lt_of_pos _ (by norm_num)
  omega

theorem foldl_hashStep_le (l : List Nat) (h : Nat) (hh : h ≤ 0x7fffffff) :
    l.foldl hashStep h ≤ 0x7fffffff := by
  induction l generalizing h with
  | nil => simpa using hh
  | cons c tl ih =>
    simp only [List.foldl_cons]
    exact ih _ (hashStep_le h c)

/-- Claim C1: `hashCode` returns 0 for the empty string; for every string
its result lies in `[0, 0x7fffffff]`; it is computed left-to-right per
UTF-16 code unit by the recurrence
`hash = ((hash << 5) - hash + charCode) & 0x7fffffff` starting from 0
(`hashStep` folded over the code units); and it matches the reference
31-bit rolling hash on fixed sample strings. -/
theorem c1_hashCode_spec :
    hashCode "" = 0
    ∧ (∀ s, hashCode s ≤ 0x7fffffff)
    ∧ (∀ s, hashCode s = (utf16CodeUnits s).foldl hashStep 0)
    ∧ hashCode "a" = 97 ∧ hashCode "abc" = 96354
    ∧ hashCode "media" = 103772132 ∧ hashCode "[[nid:1]]" = 353699648 := by
  refine ⟨by decide, ?_, ?_, by decide, by decide, by decide, by decide⟩
  · intro s
    unfold hashCode
    split
    · norm_num
    · exact foldl_hashStep_le _ 0 (by norm_num)
  · intro s
    unfold hashCode
    split
    · next hlen =>
      rw [List.length_eq_zero.mp hlen]
      rfl
    · rfl

/-! DOM model for the wysiwyg placeholder element. -/

mutual

/-- DOM node in the wysiwyg placeholder model: an element with a tag name,
attributes (name/value pairs in document order) and children, or a text
node. -/
inductive Node where
  | elem (tag : String) (attrs : List (String × String)) (children : NodeList)
  | text (s : String)

/-- Children of an element in document order. -/
inductive NodeList where
  | nnil
  | ncons (n : Node) (tl : NodeList)

end

/-- Schema entry of one token property in `Drupal.settings.media.tokenSchema`:
whether the property is required, and its default value. -/
structure PropSchema where
  required : Bool
  default : Value

/-- Lookup in a string-keyed association list (JS object whose iteration
order we model as list order). -/
def alook {α : Type} (l : List (String × α)) (k : String) : Option α :=
  (l.find? (fun p => p.1 = k)).map (fun p => p.2)

/-- The server-injected `Drupal.settings.media` configuration consumed by
the instance and utility code, plus the browser's HTML-fragment parser
(`jQuery(htmlString)` / `.append(htmlString)`), which is an external
interface of the module and therefore a configuration parameter here. -/
structure MediaConfig where
  tokenSchema : List (String × PropSchema)
  wysiwygAllowedAttributes : List String
  attributeFields : List (String × String)
  overridableFields : List (String × Fields)
  fidTypeMap : List (String × Value)
  tagMap : List (String × String)
  doLinkText : Bool
  parseHtml : String → List Node

mutual

/-- Embeds `Drupal.media.utils.copyAsNew(src)`: non-objects are returned
as-is; objects and arrays are deep-copied with `jQuery.extend(true, {}, src)`.
Extending the fresh plain object `{}` with an array source copies the
array's index properties, so a top-level array becomes a plain object keyed
by decimal index strings. -/
def copyAsNew : Value → Value
  | .vObj fs => .vObj (cloneFields fs)
  | .vArr es => .vObj (cloneArrIntoObj es 0)
  | v => v

/-- jQuery deep-extend of a source object's properties into a fresh target:
properties with `undefined` values are skipped, nested plain objects and
arrays are cloned recursively, all other values are copied directly. -/
def cloneFields : Fields → Fields
  | .fnil => .fnil
  | .fcons k v tl =>
    match v with
    | .vUndef => cloneFields tl
    | v => .fcons k (cloneValue v) (cloneFields tl)

/-- Deep clone of a nested value under `jQuery.extend(true, ...)`: nested
arrays stay arrays, nested plain objects stay plain objects. -/
def cloneValue : Value → Value
  | .vObj fs => .vObj (cloneFields fs)
  | .vArr es => .vArr (cloneList es)
  | v => v

/-- Deep clone of a nested array's elements. -/
def cloneList : ValueList → ValueList
  | .nil => .nil
  | .cons v tl => .cons (cloneValue v) (cloneList tl)

/-- Index properties of an array source extended into a fresh plain object,
keyed by decimal index; `undefined`-valued elements are skipped. -/
def cloneArrIntoObj : ValueList → Nat → Fields
  | .nil, _ => .fnil
  | .cons v tl, i =>
    match v with
    | .vUndef => cloneArrIntoObj tl (i + 1)
    | v => .fcons (toString i) (cloneValue v) (cloneArrIntoObj tl (i + 1))

end

/-- Single-quote character as a string (used to reproduce the exact thrown
messages of the source). -/
def sq : String := String.mk [Char.ofNat 39]

/-- Exact message of
`"Media token parse error: Missing required property '" + property + "'."`. -/
def missingRequiredMsg (p : String) : String :=
  "Media token parse error: Missing required property " ++ sq ++ p ++ sq ++ "."

/-- Exact message of `"Token not of type 'media'."`. -/
def wrongTypeMsg : String :=
  "Token not of type " ++ sq ++ "media" ++ sq ++ "."

/-- Loop body of `verifySettings`: `$.each(Drupal.settings.media.tokenSchema,
...)` visits the schema entries in order; a required property that is falsy
throws, a falsy optional property is overwritten with a deep copy of the
schema default. -/
def verifySettingsAux : List (String × PropSchema) → Fields → Except String Fields
  | [], s => .ok s
  | (p, ps) :: rest, s =>
    if ps.required then
      if truthyO (s.find? p) then verifySettingsAux rest s
      else .error (missingRequiredMsg p)
    else
      if truthyO (s.find? p) then verifySettingsAux rest s
      else verifySettingsAux rest (s.set p (copyAsNew ps.default))

@[simp] theorem ebind_ok {ε α β : Type} (x : α) (f : α → Except ε β) :
    (Except.ok x : Except ε α).bind f = f x := rfl

@[simp] theorem ebind_err {ε α β : Type} (e : ε) (f : α → Except ε β) :
    (Except.error e : Except ε α).bind f = .error e := rfl

/-- Final check of `verifySettings`: after the schema walk the code throws
unless `settings.type === 'media'`. -/
def verifySettingsPost (s' : Fields) : Except String Fields :=
  match s'.find? "type" with
  | some (.vStr t) => if t = "media" then .ok s' else .error wrongTypeMsg
  | _ => .error wrongTypeMsg

/-- Embeds `verifySettings()` on materialized settings (the guard
`if (!this.settings)` is handled at the call sites, where a falsy parse
result never reaches this function). -/
def verifySettings (cfg : MediaConfig) (s : Fields) : Except String Fields :=
  (verifySettingsAux cfg.tokenSchema s).bind verifySettingsPost

/-- Update in a string-keyed association list, JS-object style: an existing
key keeps its position, a new key is appended. -/
def aset {α : Type} : List (String × α) → String → α → List (String × α)
  | [], k, v => [(k, v)]
  | (k0, v0) :: tl, k, v =>
    if k0 = k then (k0, v) :: tl else (k0, v0) :: aset tl k v

mutual

/-- JS `ToString` of a value, as used when a value is coerced to a property
key (e.g. `fidTypeMap[settings.fid]`). -/
def valueToKey : Value → String
  | .vNull => "null"
  | .vUndef => "undefined"
  | .vBool b => if b then "true" else "false"
  | .vNum n => toString n
  | .vStr s => s
  | .vObj _ => "[object Object]"
  | .vArr es => arrJoinToString es

/-- JS `Array.prototype.toString`: elements joined by commas, with `null`
and `undefined` elements contributing empty strings. -/
def arrJoinToString : ValueList → String
  | .nil => ""
  | .cons v .nil =>
    (match v with
     | .vNull => ""
     | .vUndef => ""
     | v => valueToKey v)
  | .cons v (.cons w tl) =>
    (match v with
     | .vNull => ""
     | .vUndef => ""
     | v => valueToKey v) ++ "," ++ arrJoinToString (.cons w tl)

end

/-- JS `ToString` of a possibly-missing property value (`undefined`). -/
def valueToKeyO : Option Value → String
  | none => "undefined"
  | some v => valueToKey v

/-- State of one `Drupal.media.WysiwygInstance` object: the five fields set
up by the constructor. -/
structure Inst where
  token : String
  settings : Option Fields
  key : String
  placeholderBase : String
  placeholder : Option Node

/-- Embeds `new Drupal.media.WysiwygInstance(instanceInfo, placeholderBase)`
for an object `instanceInfo`: the settings are stored and verified, and a
truthy `file_type` registers the instance's type in the global
`fidTypeMap` (returned as an updated configuration). -/
def newFromSettings (cfg : MediaConfig) (s : Fields) (placeholderBase : String) :
    Except String (Inst × MediaConfig) :=
  match verifySettings cfg s with
  | .error e => .error e
  | .ok s' =>
    let cfg' :=
      match s'.find? "file_type" with
      | some ft =>
        if truthy ft then
          { cfg with
            fidTypeMap := aset cfg.fidTypeMap (valueToKeyO (s'.find? "fid")) ft }
        else cfg
      | none => cfg
    .ok ({ token := "", settings := some s', key := "",
           placeholderBase := placeholderBase, placeholder := none }, cfg')

/-- Embeds the constructor for a string `instanceInfo` (a full media token,
brackets included). -/
def newFromToken (token : String) (placeholderBase : String) : Inst :=
  { token := token, settings := none, key := "",
    placeholderBase := placeholderBase, placeholder := none }

/-! Characterization of the `verifySettings` schema walk. -/

theorem verifyAux_error_of_required_falsy (schema : List (String × PropSchema))
    (s : Fields) (p : String) (ps : PropSchema)
    (hn : (schema.map Prod.fst).Nodup) (hm : (p, ps) ∈ schema)
    (hr : ps.required = true) (hf : truthyO (s.find? p) = false) :
    ∃ p', verifySettingsAux schema s = .error (missingRequiredMsg p') := by
  induction schema generalizing s with
  | nil => simp at hm
  | cons hd tl ih =>
    obtain ⟨q, qs⟩ := hd
    simp only [List.map_cons, List.nodup_cons] at hn
    rcases List.mem_cons.mp hm with heq | hmem
    · rw [Prod.mk.injEq] at heq
      obtain ⟨h1, h2⟩ := heq
      subst h1; subst h2
      exact ⟨p, by simp [verifySettingsAux, hr, hf]⟩
    · have hp_tl : p ∈ tl.map Prod.fst := List.mem_map_of_mem _ hmem
      have hpq : q ≠ p := fun e => hn.1 (e ▸ hp_tl)
      by_cases hq : truthyO (s.find? q) = true
      · cases hreq : qs.required
        · simpa [verifySettingsAux, hreq, hq] using ih s hn.2 hmem hf
        · simpa [verifySettingsAux, hreq, hq] using ih s hn.2 hmem hf
      · simp only [Bool.not_eq_true] at hq
        cases hreq : qs.required
        · have hf' : truthyO ((s.set q (copyAsNew qs.default)).find? p) = false := by
            rw [Fields.find?_set_ne _ _ _ _ (fun e => hpq e.symm)]
            exact hf
          simpa [verifySettingsAux, hreq, hq] using ih _ hn.2 hmem hf'
        · exact ⟨q, by simp [verifySettingsAux, hreq, hq]⟩

theorem verifyAux_ok_find_not_mem (schema : List (String × PropSchema))
    (s s' : Fields) (q : String)
    (hok : verifySettingsAux schema s = .ok s')
    (hq : q ∉ schema.map Prod.fst) : s'.find? q = s.find? q := by
  induction schema generalizing s with
  | nil =>
    simp only [verifySettingsAux, Except.ok.injEq] at hok
    rw [hok]
  | cons hd tl ih =>
    obtain ⟨p, ps⟩ := hd
    simp only [List.map_cons, List.mem_cons, not_or] at hq
    by_cases ht : truthyO (s.find? p) = true
    · cases hreq : ps.required
      · simp only [verifySettingsAux, hreq, ht] at hok
        simp at hok
        exact ih _ hok hq.2
      · simp only [verifySettingsAux, hreq, ht] at hok
        simp at hok
        exact ih _ hok hq.2
    · simp only [Bool.not_eq_true] at ht
      cases hreq : ps.required
      · simp only [verifySettingsAux, hreq, ht] at hok
        simp at hok
        rw [ih _ hok hq.2, Fields.find?_set_ne _ _ _ _ hq.1]
      · simp [verifySettingsAux, hreq, ht] at hok

theorem verifyAux_ok_find_mem (schema : List (String × PropSchema))
    (s s' : Fields) (p : String) (ps : PropSchema)
    (hn : (schema.map Prod.fst).Nodup)
    (hok : verifySettingsAux schema s = .ok s') (hm : (p, ps) ∈ schema) :
    s'.find? p =
      if truthyO (s.find? p) then s.find? p
      else some (copyAsNew ps.default) := by
  induction schema generalizing s with
  | nil => simp at hm
  | cons hd tl ih =>
    obtain ⟨q, qs⟩ := hd
    simp only [List.map_cons, List.nodup_cons] at hn
    rcases List.mem_cons.mp hm with heq | hmem
    · rw [Prod.mk.injEq] at heq
      obtain ⟨h1, h2⟩ := heq
      subst h1; subst h2
      have hnp : p ∉ tl.map Prod.fst := hn.1
      by_cases ht : truthyO (s.find? p) = true
      · cases hreq : ps.required
        · simp only [verifySettingsAux, hreq, ht] at hok
          simp at hok
          rw [verifyAux_ok_find_not_mem _ _ _ _ hok hnp]
          simp [ht]
        · simp only [verifySettingsAux, hreq, ht] at hok
          simp at hok
          rw [verifyAux_ok_find_not_mem _ _ _ _ hok hnp]
          simp [ht]
      · simp only [Bool.not_eq_true] at ht
        cases hreq : ps.required
        · simp only [verifySettingsAux, hreq, ht] at hok
          simp at hok
          rw [verifyAux_ok_find_not_mem _ _ _ _ hok hnp, Fields.find?_set_self]
          simp [ht]
        · simp [verifySettingsAux, hreq, ht] at hok
    · have hp_tl : p ∈ tl.map Prod.fst := List.mem_map_of_mem _ hmem
      have hpq : q ≠ p := fun e => hn.1 (e ▸ hp_tl)
      by_cases ht : truthyO (s.find? q) = true
      · cases hreq : qs.required
        · simp only [verifySettingsAux, hreq, ht] at hok
          simp at hok
          exact ih _ hn.2 hok hmem
        · simp only [verifySettingsAux, hreq, ht] at hok
          simp at hok
          exact ih _ hn.2 hok hmem
      · simp only [Bool.not_eq_true] at ht
        cases hreq : qs.required
        · simp only [verifySettingsAux, hreq, ht] at hok
          simp at hok
          have := ih _ hn.2 hok hmem
          rwa [Fields.find?_set_ne _ _ _ _ (fun e => hpq e.symm)] at this
        · simp [verifySettingsAux, hreq, ht] at hok

theorem verifyAux_ok_required_truthy (schema : List (String × PropSchema))
    (s s' : Fields) (p : String) (ps : PropSchema)
    (hn : (schema.map Prod.fst).Nodup)
    (hok : verifySettingsAux schema s = .ok s') (hm : (p, ps) ∈ schema)
    (hr : ps.required = true) : truthyO (s.find? p) = true := by
  by_contra hf
  simp only [Bool.not_eq_true] at hf
  obtain ⟨p', he⟩ := verifyAux_error_of_required_falsy schema s p ps hn hm hr hf
  rw [hok] at he
  exact Except.noConfusion he

theorem verifySettings_ok_inv (cfg : MediaConfig) (s s' : Fields)
    (h : verifySettings cfg s = .ok s') :
    verifySettingsAux cfg.tokenSchema s = .ok s' := by
  unfold verifySettings at h
  cases haux : verifySettingsAux cfg.tokenSchema s with
  | error e => rw [haux] at h; simp at h
  | ok s0 =>
    rw [haux] at h
    simp only [ebind_ok] at h
    unfold verifySettingsPost at h
    cases hty : s0.find? "type" with
    | none => rw [hty] at h; simp at h
    | some v =>
      rw [hty] at h
      cases v with
      | vStr t =>
        by_cases htm : t = "media"
        · simp only [htm, if_true] at h
          rw [h]
        · simp [htm] at h
      | vNull => simp at h
      | vUndef => simp at h
      | vBool b => simp at h
      | vNum n => simp at h
      | vArr es => simp at h
      | vObj fs => simp at h

theorem verifySettings_error_of_aux (cfg : MediaConfig) (s : Fields)
    (e : String) (h : verifySettingsAux cfg.tokenSchema s = .error e) :
    verifySettings cfg s = .error e := by
  unfold verifySettings
  rw [h]
  rfl

/-- Concrete configuration of the C4 scenario: schema requiring `fid` and
defaulting `view_mode` to `"default"`. -/
def c4cfg : MediaConfig :=
  { tokenSchema := [("fid", ⟨true, .vNull⟩), ("view_mode", ⟨false, .vStr "default"⟩)],
    wysiwygAllowedAttributes := [], attributeFields := [], overridableFields := [],
    fidTypeMap := [], tagMap := [], doLinkText := false, parseHtml := fun _ => [] }

/-- Settings `{type:"media", fid:42}` of the C4 scenario. -/
def c4settings : Fields :=
  .fcons "type" (.vStr "media") (.fcons "fid" (.vNum 42) .fnil)

/-- Verified settings of the C4 scenario, with `view_mode` defaulted. -/
def c4result : Fields :=
  .fcons "type" (.vStr "media")
    (.fcons "fid" (.vNum 42) (.fcons "view_mode" (.vStr "default") .fnil))

/-- Claim C4: during settings verification, every schema property marked
required must be present in settings or verification throws the
malformed-token (missing required property) error; every optional schema
property absent from settings is filled with a deep copy (`copyAsNew`) of
the schema default; and constructing with `{type:"media", fid:42}` under a
schema that requires `fid` and defaults `view_mode` to `"default"` yields
settings with `view_mode == "default"`. -/
theorem c4_required_and_defaults :
    (∀ cfg : MediaConfig, ∀ s : Fields, ∀ p ps,
      (cfg.tokenSchema.map Prod.fst).Nodup →
      (p, ps) ∈ cfg.tokenSchema → ps.required = true → s.find? p = none →
      ∃ p', verifySettings cfg s = .error (missingRequiredMsg p'))
    ∧ (∀ cfg : MediaConfig, ∀ s s' : Fields, ∀ p ps,
      (cfg.tokenSchema.map Prod.fst).Nodup →
      verifySettings cfg s = .ok s' →
      (p, ps) ∈ cfg.tokenSchema → ps.required = false → s.find? p = none →
      s'.find? p = some (copyAsNew ps.default))
    ∧ newFromSettings c4cfg c4settings "" =
        .ok ({ token := "", settings := some c4result, key := "",
               placeholderBase := "", placeholder := none }, c4cfg)
    ∧ c4result.find? "view_mode" = some (.vStr "default") := by
  refine ⟨?_, ?_, rfl, rfl⟩
  · intro cfg s p ps hn hm hr habs
    obtain ⟨p', he⟩ := verifyAux_error_of_required_falsy cfg.tokenSchema s p ps
      hn hm hr (by rw [habs]; rfl)
    exact ⟨p', verifySettings_error_of_aux cfg s _ he⟩
  · intro cfg s s' p ps hn hok hm hr habs
    have haux := verifySettings_ok_inv cfg s s' hok
    have := verifyAux_ok_find_mem cfg.tokenSchema s s' p ps hn haux hm
    rwa [habs, if_neg (by simp [truthyO])] at this

/-- Witness for C4 at concrete inputs. -/
theorem c4_required_and_defaults_witness :
    (∃ p', verifySettings c4cfg (.fcons "type" (.vStr "media") .fnil) =
      .error (missingRequiredMsg p'))
    ∧ c4result.find? "view_mode" = some (copyAsNew (.vStr "default")) :=
  ⟨c4_required_and_defaults.1 c4cfg (.fcons "type" (.vStr "media") .fnil)
      "fid" ⟨true, .vNull⟩ (by decide) (by simp [c4cfg]) rfl rfl,
   c4_required_and_defaults.2.1 c4cfg c4settings c4result "view_mode"
      ⟨false, .vStr "default"⟩ (by decide) rfl (by simp [c4cfg]) rfl rfl⟩

/-- Claim C9: settings verification tests presence by truthiness, not key
existence: a required schema property whose value is present but falsy
makes `verifySettings` throw the missing-required-property error, and an
optional schema property whose value is present but falsy is overwritten
with the schema default. -/
theorem c9_truthiness_not_presence :
    (∀ cfg : MediaConfig, ∀ s : Fields, ∀ p ps v,
      (cfg.tokenSchema.map Prod.fst).Nodup →
      (p, ps) ∈ cfg.tokenSchema → ps.required = true →
      s.find? p = some v → truthy v = false →
      ∃ p', verifySettings cfg s = .error (missingRequiredMsg p'))
    ∧ (∀ cfg : MediaConfig, ∀ s s' : Fields, ∀ p ps v,
      (cfg.tokenSchema.map Prod.fst).Nodup →
      verifySettings cfg s = .ok s' →
      (p, ps) ∈ cfg.tokenSchema → ps.required = false →
      s.find? p = some v → truthy v = false →
      s'.find? p = some (copyAsNew ps.default)) := by
  constructor
  · intro cfg s p ps v hn hm hr hfind hfalsy
    obtain ⟨p', he⟩ := verifyAux_error_of_required_falsy cfg.tokenSchema s p ps
      hn hm hr (by rw [hfind]; simpa [truthyO] using hfalsy)
    exact ⟨p', verifySettings_error_of_aux cfg s _ he⟩
  · intro cfg s s' p ps v hn hok hm hr hfind hfalsy
    have haux := verifySettings_ok_inv cfg s s' hok
    have := verifyAux_ok_find_mem cfg.tokenSchema s s' p ps hn haux hm
    rwa [hfind, if_neg (by simpa [truthyO] using hfalsy)] at this

/-- Witness for C9 at concrete inputs: `fid` present as `0` (falsy) makes
verification fail; `view_mode` present as `""` (falsy) is overwritten with
the default. -/
theorem c9_truthiness_not_presence_witness :
    (∃ p', verifySettings c4cfg
        (.fcons "type" (.vStr "media") (.fcons "fid" (.vNum 0) .fnil)) =
      .error (missingRequiredMsg p'))
    ∧ (Fields.fcons "type" (.vStr "media")
        (.fcons "fid" (.vNum 42) (.fcons "view_mode" (.vStr "default") .fnil))).find?
          "view_mode" = some (copyAsNew (.vStr "default")) :=
  ⟨c9_truthiness_not_presence.1 c4cfg
      (.fcons "type" (.vStr "media") (.fcons "fid" (.vNum 0) .fnil))
      "fid" ⟨true, .vNull⟩ (.vNum 0) (by decide) (by simp [c4cfg]) rfl rfl rfl,
   c9_truthiness_not_presence.2 c4cfg
      (.fcons "type" (.vStr "media")
        (.fcons "fid" (.vNum 42) (.fcons "view_mode" (.vStr "") .fnil)))
      (.fcons "type" (.vStr "media")
        (.fcons "fid" (.vNum 42) (.fcons "view_mode" (.vStr "default") .fnil)))
      "view_mode" ⟨false, .vStr "default"⟩ (.vStr "") (by decide) rfl
      (by simp [c4cfg]) rfl rfl rfl⟩

/-- Value assigned to the field property in the attributes→fields direction:
`settings.attributes[attribute] ? settings.attributes[attribute] : ''`. -/
def attrCoalesce (a : Fields) (attrName : String) : Value :=
  match a.find? attrName with
  | some w => if truthy w then w else .vStr ""
  | none => .vStr ""

/-- Loop of `syncAttributesToFields(reverse)` over the
`Drupal.settings.media.attributeFields` table.  When `propertyStartsWith`
returns `null`, the JS property write `settings[null]` coerces the key to
the string `"null"`.  On a primitive (non-object) `attributes` value, a JS
property read yields `undefined`, a strict-mode property write throws a
`TypeError`, and `delete` of a non-index property is a no-op; reads of
string index properties are not modelled. -/
def syncA2FAux : List (String × String) → Bool → Fields → Except String Fields
  | [], _, s => .ok s
  | (attrName, fieldName) :: rest, reverse, s =>
    let fieldId :=
      match propertyStartsWith (fieldName ++ "[") s with
      | some k => k
      | none => "null"
    if !reverse then
      match s.find? "attributes" with
      | none => .error "TypeError"
      | some attrsv =>
        let av :=
          match attrsv with
          | .vObj a => a.find? attrName
          | _ => none
        let v :=
          match av with
          | some w => if truthy w then w else .vStr ""
          | none => .vStr ""
        syncA2FAux rest reverse (s.set fieldId v)
    else
      match s.find? fieldId with
      | some fv =>
        if truthy fv then
          match s.find? "attributes" with
          | some (.vObj a) =>
            syncA2FAux rest reverse (s.set "attributes" (.vObj (a.set attrName fv)))
          | some _ => .error "TypeError"
          | none => .error "TypeError"
        else
          match s.find? "attributes" with
          | some (.vObj a) =>
            syncA2FAux rest reverse (s.set "attributes" (.vObj (a.del attrName)))
          | some _ => syncA2FAux rest reverse s
          | none => .error "TypeError"
      | none =>
        match s.find? "attributes" with
        | some (.vObj a) =>
          syncA2FAux rest reverse (s.set "attributes" (.vObj (a.del attrName)))
        | some _ => syncA2FAux rest reverse s
        | none => .error "TypeError"

/-- Embeds `syncAttributesToFields(reverse)`: a falsy `settings.attributes`
is first replaced by a fresh empty object, then the attribute↔field table
is walked. -/
def syncAttributesToFields (cfg : MediaConfig) (reverse : Bool) (s : Fields) :
    Except String Fields :=
  let s' := if truthyO (s.find? "attributes") then s else s.set "attributes" (.vObj .fnil)
  syncA2FAux cfg.attributeFields reverse s'

/-- Embeds `syncFieldsToAttributes()`, which is `syncAttributesToFields(true)`. -/
def syncFieldsToAttributes (cfg : MediaConfig) (s : Fields) : Except String Fields :=
  syncAttributesToFields cfg true s

theorem Fields.not_mem_keys_of_find?_eq_none (f : Fields) (k : String)
    (h : f.find? k = none) : k ∉ f.keys := by
  induction f with
  | fnil => simp [Fields.keys]
  | fcons k0 v0 tl ih =>
    by_cases h0 : k0 = k
    · simp [Fields.find?, h0] at h
    · simp [Fields.find?, h0] at h
      simp [Fields.keys, Ne.symm h0, ih h]

theorem propertyStartsWith_none (needle : String) (f : Fields)
    (h : ∀ k ∈ f.keys, strStartsWith k needle = false) :
    propertyStartsWith needle f = none := by
  unfold propertyStartsWith
  rw [List.find?_eq_none]
  intro x hx
  simp [h x hx]

/-- Forward (attributes→fields) walk characterization: given an
object-valued `attributes` and a successful, pairwise-distinct field lookup
for every mapped attribute, the walk succeeds, preserves the key list and
the `attributes` entry, writes `attrCoalesce` into each looked-up field
property, and leaves every other property unchanged. -/
theorem syncA2F_forward (T : List (String × String)) (s A : Fields)
    (hA : s.find? "attributes" = some (.vObj A))
    (hfid : ∀ p ∈ T, (propertyStartsWith (p.2 ++ "[") s).isSome = true)
    (hinj : (T.map (fun p => propertyStartsWith (p.2 ++ "[") s)).Nodup) :
    ∃ s₁, syncA2FAux T false s = .ok s₁ ∧ s₁.keys = s.keys ∧
      s₁.find? "attributes" = some (.vObj A) ∧
      (∀ p ∈ T, ∀ k, propertyStartsWith (p.2 ++ "[") s = some k →
        s₁.find? k = some (attrCoalesce A p.1)) ∧
      (∀ q, (∀ p ∈ T, propertyStartsWith (p.2 ++ "[") s ≠ some q) →
        s₁.find? q = s.find? q) := by
  induction T generalizing s with
  | nil =>
    exact ⟨s, rfl, rfl, hA, by simp, fun q _ => rfl⟩
  | cons hd rest ih =>
    obtain ⟨a, f⟩ := hd
    cases hk : propertyStartsWith (f ++ "[") s with
    | none =>
      have := hfid (a, f) (List.mem_cons_self _ _)
      rw [hk] at this
      simp at this
    | some k =>
      have hkmem := propertyStartsWith_mem _ _ _ hk
      have hkbr : '[' ∈ k.data := mem_lbracket_of_startsWith f k hkmem.2
      have hkattr : k ≠ "attributes" := by
        intro e
        subst e
        revert hkbr
        decide
      have hstep : syncA2FAux ((a, f) :: rest) false s =
          syncA2FAux rest false (s.set k (attrCoalesce A a)) := by
        simp only [syncA2FAux, hk, hA, Bool.not_false, if_true]
        rfl
      have hkeys : (s.set k (attrCoalesce A a)).keys = s.keys :=
        Fields.keys_set_of_mem _ _ _ hkmem.1
      have hps_eq : ∀ needle, propertyStartsWith needle (s.set k (attrCoalesce A a)) =
          propertyStartsWith needle s :=
        fun n => propertyStartsWith_keys_eq n _ s hkeys
      have hA' : (s.set k (attrCoalesce A a)).find? "attributes" = some (.vObj A) := by
        rw [Fields.find?_set_ne _ _ _ _ (fun e => hkattr e.symm)]
        exact hA
      have hmap_eq : rest.map (fun p => propertyStartsWith (p.2 ++ "[")
            (s.set k (attrCoalesce A a))) =
          rest.map (fun p => propertyStartsWith (p.2 ++ "[") s) :=
        List.map_congr_left (fun p _ => hps_eq _)
      have hinj2 : (propertyStartsWith (f ++ "[") s ::
          rest.map (fun p => propertyStartsWith (p.2 ++ "[") s)).Nodup := by
        have h' := hinj
        rw [List.map_cons] at h'
        exact h'
      have hnd := List.nodup_cons.mp hinj2
      have hinj' : (rest.map (fun p => propertyStartsWith (p.2 ++ "[")
            (s.set k (attrCoalesce A a)))).Nodup := by
        rw [hmap_eq]
        exact hnd.2
      have hfid' : ∀ p ∈ rest, (propertyStartsWith (p.2 ++ "[")
          (s.set k (attrCoalesce A a))).isSome = true := by
        intro p hp
        rw [hps_eq]
        exact hfid p (List.mem_cons_of_mem _ hp)
      obtain ⟨s₁, hrun, hkeys₁, hA₁, hvals₁, hframe₁⟩ :=
        ih (s.set k (attrCoalesce A a)) hA' hfid' hinj'
      have hknotrest : ∀ p ∈ rest, propertyStartsWith (p.2 ++ "[") s ≠ some k := by
        intro p hp he
        apply hnd.1
        rw [hk]
        exact he ▸ List.mem_map_of_mem _ hp
      refine ⟨s₁, by rw [hstep]; exact hrun, hkeys₁.trans hkeys, hA₁, ?_, ?_⟩
      · intro p hp k0 hk0
        rcases List.mem_cons.mp hp with heq | hmem
        · subst heq
          rw [hk] at hk0
          obtain rfl : k = k0 := by injection hk0
          have : s₁.find? k = (s.set k (attrCoalesce A a)).find? k := by
            apply hframe₁
            intro p' hp' he
            rw [hps_eq] at he
            exact hknotrest p' hp' he
          rw [this, Fields.find?_set_self]
        · have := hvals₁ p hmem k0 (by rw [hps_eq]; exact hk0)
          exact this
      · intro q hq
        have h1 : s₁.find? q = (s.set k (attrCoalesce A a)).find? q := by
          apply hframe₁
          intro p' hp' he
          rw [hps_eq] at he
          exact hq p' (List.mem_cons_of_mem _ hp') he
        have hqk : q ≠ k := by
          intro e
          subst e
          exact hq (a, f) (List.mem_cons_self _ _) hk
        rw [h1, Fields.find?_set_ne _ _ _ _ hqk]

/-- Reverse (fields→attributes) walk: when every mapped attribute's field
property holds exactly the coalesced value of a truthy-or-absent attribute,
the walk is the identity on the settings. -/
theorem syncA2F_reverse (T : List (String × String)) (s A : Fields)
    (hA : s.find? "attributes" = some (.vObj A))
    (hvals : ∀ p ∈ T, ∃ k, propertyStartsWith (p.2 ++ "[") s = some k ∧
        s.find? k = some (attrCoalesce A p.1))
    (htr : ∀ p ∈ T, ∀ v, A.find? p.1 = some v → truthy v = true) :
    syncA2FAux T true s = .ok s := by
  induction T with
  | nil => rfl
  | cons hd rest ih =>
    obtain ⟨a, f⟩ := hd
    obtain ⟨k, hk, hval⟩ := hvals (a, f) (List.mem_cons_self _ _)
    cases ha : A.find? a with
    | some w =>
      have hw : truthy w = true := htr (a, f) (List.mem_cons_self _ _) w ha
      have hco : attrCoalesce A a = w := by
        simp [attrCoalesce, ha, hw]
      rw [hco] at hval
      have hAset : A.set a w = A := Fields.set_find?_self A a w ha
      have hsset : s.set "attributes" (.vObj A) = s :=
        Fields.set_find?_self s "attributes" _ hA
      have hstep : syncA2FAux ((a, f) :: rest) true s = syncA2FAux rest true s := by
        simp only [syncA2FAux, hk, hval, hA, hw, Bool.not_true,
          Bool.false_eq_true, if_false, if_true, hAset, hsset]
      rw [hstep]
      exact ih (fun p hp => hvals p (List.mem_cons_of_mem _ hp))
        (fun p hp => htr p (List.mem_cons_of_mem _ hp))
    | none =>
      have hco : attrCoalesce A a = .vStr "" := by
        simp [attrCoalesce, ha]
      rw [hco] at hval
      have hAdel : A.del a = A :=
        Fields.del_of_not_mem A a (Fields.not_mem_keys_of_find?_eq_none A a ha)
      have hsset : s.set "attributes" (.vObj A) = s :=
        Fields.set_find?_self s "attributes" _ hA
      have hemp : truthy (Value.vStr "") = false := rfl
      have hstep : syncA2FAux ((a, f) :: rest) true s = syncA2FAux rest true s := by
        simp only [syncA2FAux, hk, hval, hA, Bool.not_true,
          Bool.false_eq_true, if_false, hemp, hAdel, hsset]
      rw [hstep]
      exact ih (fun p hp => hvals p (List.mem_cons_of_mem _ hp))
        (fun p hp => htr p (List.mem_cons_of_mem _ hp))

/-- Claim C5 (amended): for a settings object whose `attributes` is an
object, such that every mapped attribute has a distinct, existing
field property (the prefix lookup succeeds, injectively across the table)
and every mapped attribute present in `settings.attributes` has a truthy
value, running the reconciliation attributes→fields and then
fields→attributes reproduces the original `settings.attributes` mapping. -/
theorem c5_fixed_point_amended (cfg : MediaConfig) (s A : Fields)
    (hA : s.find? "attributes" = some (.vObj A))
    (hfid : ∀ p ∈ cfg.attributeFields,
      (propertyStartsWith (p.2 ++ "[") s).isSome = true)
    (hinj : (cfg.attributeFields.map
      (fun p => propertyStartsWith (p.2 ++ "[") s)).Nodup)
    (htr : ∀ p ∈ cfg.attributeFields, ∀ v,
      A.find? p.1 = some v → truthy v = true) :
    ∃ s₁, syncAttributesToFields cfg false s = .ok s₁ ∧
      syncAttributesToFields cfg true s₁ = .ok s₁ ∧
      s₁.find? "attributes" = some (.vObj A) := by
  obtain ⟨s₁, hrun, hkeys₁, hA₁, hvals₁, _⟩ :=
    syncA2F_forward cfg.attributeFields s A hA hfid hinj
  have hps_eq : ∀ needle, propertyStartsWith needle s₁ = propertyStartsWith needle s :=
    fun n => propertyStartsWith_keys_eq n s₁ s hkeys₁
  have hw1 : syncAttributesToFields cfg false s = syncA2FAux cfg.attributeFields false s := by
    simp only [syncAttributesToFields, hA, truthyO, truthy, if_true]
  have hrev : syncA2FAux cfg.attributeFields true s₁ = .ok s₁ := by
    apply syncA2F_reverse cfg.attributeFields s₁ A hA₁ _ htr
    intro p hp
    cases hk : propertyStartsWith (p.2 ++ "[") s with
    | none =>
      have := hfid p hp
      rw [hk] at this
      simp at this
    | some k =>
      exact ⟨k, by rw [hps_eq]; exact hk, hvals₁ p hp k hk⟩
  have hw2 : syncAttributesToFields cfg true s₁ = syncA2FAux cfg.attributeFields true s₁ := by
    simp only [syncAttributesToFields, hA₁, truthyO, truthy, if_true]
  exact ⟨s₁, by rw [hw1]; exact hrun, by rw [hw2]; exact hrev, hA₁⟩

/-- Configuration with a single `alt` attribute mapped to field `field_alt`
(C5 counterexample, part 1). -/
def c5acfg : MediaConfig :=
  { tokenSchema := [], wysiwygAllowedAttributes := [],
    attributeFields := [("alt", "field_alt")], overridableFields := [],
    fidTypeMap := [], tagMap := [], doLinkText := false, parseHtml := fun _ => [] }

/-- Settings whose `attributes.alt` is present but empty (falsy). -/
def c5as : Fields :=
  .fcons "attributes" (.vObj (.fcons "alt" (.vStr "") .fnil))
    (.fcons "field_alt[und][0][value]" (.vStr "x") .fnil)

/-- State after attributes→fields on `c5as`. -/
def c5as1 : Fields :=
  .fcons "attributes" (.vObj (.fcons "alt" (.vStr "") .fnil))
    (.fcons "field_alt[und][0][value]" (.vStr "") .fnil)

/-- State after fields→attributes on `c5as1`: `alt` has been deleted. -/
def c5as2 : Fields :=
  .fcons "attributes" (.vObj .fnil)
    (.fcons "field_alt[und][0][value]" (.vStr "") .fnil)

/-- Configuration with two attributes whose mapped fields are absent
(C5 counterexample, part 2). -/
def c5bcfg : MediaConfig :=
  { tokenSchema := [], wysiwygAllowedAttributes := [],
    attributeFields := [("alt", "fa"), ("title", "fb")], overridableFields := [],
    fidTypeMap := [], tagMap := [], doLinkText := false, parseHtml := fun _ => [] }

/-- Settings carrying `attributes = {alt:"x", title:"y"}` and no field
properties at all. -/
def c5bs : Fields :=
  .fcons "attributes"
    (.vObj (.fcons "alt" (.vStr "x") (.fcons "title" (.vStr "y") .fnil))) .fnil

/-- State after attributes→fields on `c5bs`: both mapped attributes were
written to the shared property `"null"`, the last one winning. -/
def c5bs1 : Fields :=
  .fcons "attributes"
    (.vObj (.fcons "alt" (.vStr "x") (.fcons "title" (.vStr "y") .fnil)))
    (.fcons "null" (.vStr "y") .fnil)

/-- State after fields→attributes on `c5bs1`: both attributes now hold the
shared `"null"` value `"y"`. -/
def c5bs2 : Fields :=
  .fcons "attributes"
    (.vObj (.fcons "alt" (.vStr "y") (.fcons "title" (.vStr "y") .fnil)))
    (.fcons "null" (.vStr "y") .fnil)

/-- Counterexample to claim C5 as stated: the two-direction composition is
not a fixed point for every settings object and table.  Part 1: a mapped
attribute present with a falsy value (`alt: ""`) is deleted by the
round-trip.  Part 2: when the mapped field properties do not exist, all
mapped attributes are overwritten with the last attribute's value via the
shared `"null"` property. -/
theorem c5_counterexample :
    (syncAttributesToFields c5acfg false c5as = .ok c5as1
      ∧ syncAttributesToFields c5acfg true c5as1 = .ok c5as2
      ∧ c5as.find? "attributes" = some (.vObj (.fcons "alt" (.vStr "") .fnil))
      ∧ c5as2.find? "attributes" = some (.vObj .fnil)
      ∧ ¬(Value.vObj Fields.fnil = .vObj (.fcons "alt" (.vStr "") .fnil)))
    ∧ (syncAttributesToFields c5bcfg false c5bs = .ok c5bs1
      ∧ syncAttributesToFields c5bcfg true c5bs1 = .ok c5bs2
      ∧ c5bs.find? "attributes" =
          some (.vObj (.fcons "alt" (.vStr "x") (.fcons "title" (.vStr "y") .fnil)))
      ∧ c5bs2.find? "attributes" =
          some (.vObj (.fcons "alt" (.vStr "y") (.fcons "title" (.vStr "y") .fnil)))
      ∧ ¬(Value.vObj (.fcons "alt" (.vStr "y") (.fcons "title" (.vStr "y") .fnil)) =
          .vObj (.fcons "alt" (.vStr "x") (.fcons "title" (.vStr "y") .fnil)))) := by
  refine ⟨⟨rfl, rfl, rfl, rfl, ?_⟩, ⟨rfl, rfl, rfl, rfl, ?_⟩⟩
  · intro h
    injection h with h1
    exact Fields.noConfusion h1
  · intro h
    injection h with h1
    injection h1 with hk hv htl
    injection hv with hs
    exact absurd hs (by decide)

/-- Configuration and settings of the C5 amended-claim witness. -/
def c5wcfg : MediaConfig :=
  { tokenSchema := [], wysiwygAllowedAttributes := [],
    attributeFields := [("alt", "fa")], overridableFields := [],
    fidTypeMap := [], tagMap := [], doLinkText := false, parseHtml := fun _ => [] }

/-- Settings with a truthy `attributes.alt` and an existing `fa[...]` field. -/
def c5ws : Fields :=
  .fcons "attributes" (.vObj (.fcons "alt" (.vStr "x") .fnil))
    (.fcons "fa[und]" (.vStr "q") .fnil)

/-- Witness for the amended C5 at concrete inputs. -/
theorem c5_fixed_point_amended_witness :
    ∃ s₁, syncAttributesToFields c5wcfg false c5ws = .ok s₁ ∧
      syncAttributesToFields c5wcfg true s₁ = .ok s₁ ∧
      s₁.find? "attributes" = some (.vObj (.fcons "alt" (.vStr "x") .fnil)) :=
  c5_fixed_point_amended c5wcfg c5ws (.fcons "alt" (.vStr "x") .fnil) rfl
    (by decide) (by decide)
    (by
      intro p hp v hv
      simp only [c5wcfg, List.mem_singleton] at hp
      subst hp
      have hv' : some (Value.vStr "x") = some v := hv
      injection hv' with hv2
      rw [← hv2]
      rfl)

/-- Configuration of the C10 witness. -/
def c10cfg : MediaConfig :=
  { tokenSchema := [], wysiwygAllowedAttributes := [],
    attributeFields := [("alt", "fx")], overridableFields := [],
    fidTypeMap := [], tagMap := [], doLinkText := false, parseHtml := fun _ => [] }

/-- Settings of the C10 witness: no property starts with `fx[`. -/
def c10s : Fields :=
  .fcons "attributes" (.vObj (.fcons "alt" (.vStr "v") .fnil)) .fnil

/-- Claim C10: in the attributes→fields direction, when no settings
property name starts with the mapped field-name prefix,
`propertyStartsWith` returns null, and the sync assigns the attribute's
value (or empty string) to a settings property literally named `"null"`
instead of skipping that attribute. -/
theorem c10_null_key_assignment :
    (∀ needle : String, ∀ f : Fields,
      (∀ k ∈ f.keys, strStartsWith k needle = false) →
      propertyStartsWith needle f = none)
    ∧ (∀ cfg : MediaConfig, ∀ aName fName : String, ∀ s A : Fields,
      cfg.attributeFields = [(aName, fName)] →
      s.find? "attributes" = some (.vObj A) →
      (∀ k ∈ s.keys, strStartsWith k (fName ++ "[") = false) →
      syncAttributesToFields cfg false s =
        .ok (s.set "null" (attrCoalesce A aName))) := by
  constructor
  · exact propertyStartsWith_none
  · intro cfg aName fName s A hT hA hnone
    have h0 : propertyStartsWith (fName ++ "[") s = none :=
      propertyStartsWith_none _ _ hnone
    simp only [syncAttributesToFields, hA, truthyO, truthy, if_true, hT]
    simp only [syncA2FAux, h0, hA, Bool.not_false, if_true]
    rfl

/-- Witness for C10 at concrete inputs. -/
theorem c10_null_key_assignment_witness :
    propertyStartsWith "fx[" c10s = none
    ∧ syncAttributesToFields c10cfg false c10s =
        .ok (c10s.set "null" (attrCoalesce (.fcons "alt" (.vStr "v") .fnil) "alt")) :=
  ⟨c10_null_key_assignment.1 "fx[" c10s (by decide),
   c10_null_key_assignment.2 c10cfg "alt" "fx" c10s
     (.fcons "alt" (.vStr "v") .fnil) rfl rfl (by decide)⟩

/-! Embedding of `JSON.stringify` and `JSON.parse` as used by `getToken`
and `getSettings`.  Restrictions of the embedding: JSON numbers are
integers (no fractions or exponents — the module's tokens carry only
integral numbers), and strings contain Unicode scalar values (lone
surrogates are rejected). -/

/-- JSON insignificant whitespace. -/
def isJsonWs (c : Char) : Bool :=
  c = ' ' ∨ c = '\t' ∨ c = '\n' ∨ c = '\r'

/-- ASCII decimal digit. -/
def isDigitChar (c : Char) : Bool :=
  48 ≤ c.toNat ∧ c.toNat ≤ 57

/-- Lower-case hexadecimal digit for values below 16. -/
def hexDigitChar (d : Nat) : Char :=
  if d < 10 then Char.ofNat (48 + d) else Char.ofNat (87 + d)

/-- Value of a hexadecimal digit character (upper or lower case). -/
def hexVal (c : Char) : Option Nat :=
  if 48 ≤ c.toNat ∧ c.toNat ≤ 57 then some (c.toNat - 48)
  else if 97 ≤ c.toNat ∧ c.toNat ≤ 102 then some (c.toNat - 87)
  else if 65 ≤ c.toNat ∧ c.toNat ≤ 70 then some (c.toNat - 55)
  else none

/-- JSON string escaping of one character, as produced by
`JSON.stringify`: quote and backslash, the short control escapes, `\u00XX`
for other control characters, everything else raw. -/
def escapeChar (c : Char) : List Char :=
  if c = '"' then ['\\', '"']
  else if c = '\\' then ['\\', '\\']
  else if c = Char.ofNat 8 then ['\\', 'b']
  else if c = Char.ofNat 12 then ['\\', 'f']
  else if c = '\n' then ['\\', 'n']
  else if c = Char.ofNat 13 then ['\\', 'r']
  else if c = '\t' then ['\\', 't']
  else if c.toNat < 32 then
    ['\\', 'u', '0', '0', hexDigitChar (c.toNat / 16), hexDigitChar (c.toNat % 16)]
  else [c]

/-- JSON escaping of a character sequence. -/
def escapeStr : List Char → List Char
  | [] => []
  | c :: tl => escapeChar c ++ escapeStr tl

/-- Quoted JSON string literal of a character sequence. -/
def quoteChars (l : List Char) : List Char :=
  '"' :: escapeStr l ++ ['"']

/-- Character of a decimal digit. -/
def digitCh (d : Nat) : Char :=
  Char.ofNat (48 + d)

/-- Decimal digits of a positive number, least significant first, with
structural fuel so that the definition evaluates by reduction. -/
def natCharsAux : Nat → Nat → List Char
  | 0, _ => []
  | f + 1, m => if m = 0 then [] else digitCh (m % 10) :: natCharsAux f (m / 10)

/-- Decimal digits of a natural number, most significant first. -/
def natChars (m : Nat) : List Char :=
  if m = 0 then ['0'] else (natCharsAux m m).reverse

theorem natCharsAux_eq_digits (f m : Nat) (h : m ≤ f) :
    natCharsAux f m = (Nat.digits 10 m).map digitCh := by
  induction f generalizing m with
  | zero =>
    interval_cases m
    simp [natCharsAux]
  | succ f ih =>
    by_cases hm : m = 0
    · simp [natCharsAux, hm]
    · rw [Nat.digits_def' (by norm_num : 1 < 10) (Nat.pos_of_ne_zero hm)]
      have hdiv : m / 10 ≤ f := by
        have h1 : m / 10 < m := Nat.div_lt_self (Nat.pos_of_ne_zero hm) (by norm_num)
        omega
      simp [natCharsAux, hm, ih _ hdiv]

/-- Decimal rendering of an integer (JS `Number::toString` on integers). -/
def intChars (n : Int) : List Char :=
  if n < 0 then '-' :: natChars n.natAbs else natChars n.toNat

/-- Comma-join of rendered fragments. -/
def joinComma : List (List Char) → List Char
  | [] => []
  | [x] => x
  | x :: y :: tl => x ++ ',' :: joinComma (y :: tl)

mutual

/-- Embeds `JSON.stringify` on a value.  A top-level `undefined` only
occurs in string-concatenation position in the source and is rendered as
`"undefined"` there. -/
def stringifyV : Value → List Char
  | .vNull => ['n', 'u', 'l', 'l']
  | .vUndef => ['u', 'n', 'd', 'e', 'f', 'i', 'n', 'e', 'd']
  | .vBool b => if b then ['t', 'r', 'u', 'e'] else ['f', 'a', 'l', 's', 'e']
  | .vNum n => intChars n
  | .vStr s => quoteChars s.data
  | .vArr es => '[' :: arrBody es ++ [']']
  | .vObj fs => '{' :: joinComma (objEntries fs) ++ ['}']

/-- Array elements rendered comma-separated; `undefined` elements become
`null` as in `JSON.stringify`. -/
def arrBody : ValueList → List Char
  | .nil => []
  | .cons v .nil =>
    (match v with
     | .vUndef => ['n', 'u', 'l', 'l']
     | v => stringifyV v)
  | .cons v (.cons w tl) =>
    (match v with
     | .vUndef => ['n', 'u', 'l', 'l']
     | v => stringifyV v) ++ ',' :: arrBody (.cons w tl)

/-- Rendered `"key":value` entries of an object; properties with
`undefined` values are skipped by `JSON.stringify`. -/
def objEntries : Fields → List (List Char)
  | .fnil => []
  | .fcons k v tl =>
    match v with
    | .vUndef => objEntries tl
    | v => (quoteChars k.data ++ ':' :: stringifyV v) :: objEntries tl

end

/-- String-level `JSON.stringify`. -/
def stringifyJson (v : Value) : String :=
  String.mk (stringifyV v)

/-- Skip JSON whitespace. -/
def skipWs (l : List Char) : List Char :=
  l.dropWhile isJsonWs

/-- Prepend a decoded character to a string-body parse result. -/
def sbCons (c : Char) : Option (List Char × List Char) → Option (List Char × List Char)
  | some (s, r) => some (c :: s, r)
  | none => none

/-- Decode the low half of a surrogate pair following a decoded high
surrogate value `n`. -/
def parseLowSurrogate (n : Nat) : List Char → Option (Char × List Char)
  | '\\' :: 'u' :: g1 :: g2 :: g3 :: g4 :: rest4 =>
    match hexVal g1, hexVal g2, hexVal g3, hexVal g4 with
    | some a2, some b2, some c3, some d2 =>
      let m := 4096 * a2 + 256 * b2 + 16 * c3 + d2
      if 0xDC00 ≤ m ∧ m < 0xE000 then
        some (Char.ofNat (0x10000 + (n - 0xD800) * 0x400 + (m - 0xDC00)), rest4)
      else none
    | _, _, _, _ => none
  | _ => none

/-- Decode a `\uXXXX` escape after the `u`; surrogate pairs are combined,
lone surrogates are rejected (Lean characters are Unicode scalar values). -/
def parseUEscape : List Char → Option (Char × List Char)
  | h1 :: h2 :: h3 :: h4 :: rest3 =>
    match hexVal h1, hexVal h2, hexVal h3, hexVal h4 with
    | some a, some b, some c2, some d =>
      let n := 4096 * a + 256 * b + 16 * c2 + d
      if n < 0xD800 ∨ 0xE000 ≤ n then some (Char.ofNat n, rest3)
      else if n < 0xDC00 then parseLowSurrogate n rest3
      else none
    | _, _, _, _ => none
  | _ => none

/-- Decode one JSON string escape after the backslash. -/
def parseEscape : List Char → Option (Char × List Char)
  | [] => none
  | e :: rest2 =>
    if e = '"' ∨ e = '\\' ∨ e = '/' then some (e, rest2)
    else if e = 'b' then some (Char.ofNat 8, rest2)
    else if e = 'f' then some (Char.ofNat 12, rest2)
    else if e = 'n' then some ('\n', rest2)
    else if e = 'r' then some (Char.ofNat 13, rest2)
    else if e = 't' then some ('\t', rest2)
    else if e = 'u' then parseUEscape rest2
    else none

/-- Parse the body of a JSON string literal after the opening quote with
structural fuel (one unit per decoded character suffices), returning the
decoded characters and the input after the closing quote.  Raw control
characters are rejected as in `JSON.parse`. -/
def parseStringBody : Nat → List Char → Option (List Char × List Char)
  | 0, _ => none
  | _ + 1, [] => none
  | f + 1, c :: rest =>
    if c = '"' then some ([], rest)
    else if c = '\\' then
      match parseEscape rest with
      | some (d, rest2) => sbCons d (parseStringBody f rest2)
      | none => none
    else if c.toNat < 32 then none
    else sbCons c (parseStringBody f rest)

/-- Parse a JSON string body with sufficient fuel. -/
def parseStr (cs : List Char) : Option (List Char × List Char) :=
  parseStringBody (cs.length + 1) cs

/-- Accumulated value of a big-endian digit run. -/
def parseDigitsVal (l : List Char) : Nat :=
  l.foldl (fun a c => 10 * a + (c.toNat - 48)) 0

/-- Parse an unsigned JSON integer (leading zeros rejected, maximal digit
run consumed). -/
def parseNumAbs (cs : List Char) : Option (Nat × List Char) :=
  let ds := cs.takeWhile isDigitChar
  let rest := cs.dropWhile isDigitChar
  if ds.isEmpty then none
  else if ds.head? = some '0' ∧ 1 < ds.length then none
  else some (parseDigitsVal ds, rest)

/-- Parse a JSON number restricted to integers. -/
def parseNumber (cs : List Char) : Option (Value × List Char) :=
  match cs with
  | '-' :: rest =>
    match parseNumAbs rest with
    | some (n, r) => some (.vNum (-(n : Int)), r)
    | none => none
  | _ =>
    match parseNumAbs cs with
    | some (n, r) => some (.vNum (n : Int), r)
    | none => none

/-- Append at the end of a JS array value. -/
def vlAppend : ValueList → Value → ValueList
  | .nil, v => .cons v .nil
  | .cons w tl, v => .cons w (vlAppend tl v)

mutual

/-- Fuel-indexed embedding of `JSON.parse` on one value: returns the value
and the unconsumed input.  The fuel strictly exceeds the consumed input
length on every successful parse started with `length + 1` fuel. -/
def parseV : Nat → List Char → Option (Value × List Char)
  | 0, _ => none
  | f + 1, cs =>
    match skipWs cs with
    | 't' :: 'r' :: 'u' :: 'e' :: r => some (.vBool true, r)
    | 'f' :: 'a' :: 'l' :: 's' :: 'e' :: r => some (.vBool false, r)
    | 'n' :: 'u' :: 'l' :: 'l' :: r => some (.vNull, r)
    | '{' :: rest =>
      (match skipWs rest with
       | '}' :: r2 => some (.vObj .fnil, r2)
       | _ => parseObjFields f rest .fnil)
    | '[' :: rest =>
      (match skipWs rest with
       | ']' :: r2 => some (.vArr .nil, r2)
       | _ => parseArrElems f rest .nil)
    | '"' :: rest =>
      (match parseStr rest with
       | some (s, r) => some (.vStr (String.mk s), r)
       | none => none)
    | cs' => parseNumber cs'

/-- Parse the members of an object literal after its opening brace (the
empty object is handled by the caller), accumulating into a JS object so
that duplicate keys overwrite as in `JSON.parse`. -/
def parseObjFields : Nat → List Char → Fields → Option (Value × List Char)
  | 0, _, _ => none
  | f + 1, cs, acc =>
    match skipWs cs with
    | '"' :: rest =>
      (match parseStr rest with
       | some (kChars, r1) =>
         (match skipWs r1 with
          | ':' :: r2 =>
            (match parseV f r2 with
             | some (v, r3) =>
               (match skipWs r3 with
                | ',' :: r4 => parseObjFields f r4 (acc.set (String.mk kChars) v)
                | '}' :: r4 => some (.vObj (acc.set (String.mk kChars) v), r4)
                | _ => none)
             | none => none)
          | _ => none)
       | none => none)
    | _ => none

/-- Parse the elements of an array literal after its opening bracket (the
empty array is handled by the caller). -/
def parseArrElems : Nat → List Char → ValueList → Option (Value × List Char)
  | 0, _, _ => none
  | f + 1, cs, acc =>
    match parseV f cs with
    | some (v, r1) =>
      (match skipWs r1 with
       | ',' :: r2 => parseArrElems f r2 (vlAppend acc v)
       | ']' :: r2 => some (.vArr (vlAppend acc v), r2)
       | _ => none)
    | none => none

end

/-- Embeds `JSON.parse`: one JSON value followed only by whitespace. -/
def parseJson (s : String) : Option Value :=
  match parseV (s.data.length + 1) s.data with
  | some (v, rest) => if (skipWs rest).isEmpty then some v else none
  | none => none

/-! Round-trip lemmas: `parseV` inverts `stringifyV` on well-formed values. -/

theorem charToNat_ofNat_valid (n : Nat) (h : Nat.isValidChar n) :
    (Char.ofNat n).toNat = n := by
  rw [Char.ofNat, dif_pos h]
  rfl

theorem hexVal_hexDigitChar : ∀ d : Nat, d < 16 → hexVal (hexDigitChar d) = some d := by
  decide

theorem skipWs_cons_of_not_ws (c : Char) (l : List Char) (h : isJsonWs c = false) :
    skipWs (c :: l) = c :: l := by
  simp [skipWs, List.dropWhile_cons, h]

theorem parseSB_step (f : Nat) (pre : List Char) (c : Char) (k s r : List Char)
    (h : parseStringBody f k = some (s, r))
    (hred : parseStringBody (f + 1) (pre ++ k) = sbCons c (parseStringBody f k)) :
    parseStringBody (f + 1) (pre ++ k) = some (c :: s, r) := by
  rw [hred, h]
  rfl

theorem parseStringBody_escapeChar (f : Nat) (c : Char) (k s r : List Char)
    (h : parseStringBody f k = some (s, r)) :
    parseStringBody (f + 1) (escapeChar c ++ k) = some (c :: s, r) := by
  by_cases h1 : c = '"'
  · subst h1; exact parseSB_step f _ _ k s r h rfl
  by_cases h2 : c = '\\'
  · subst h2; exact parseSB_step f _ _ k s r h rfl
  by_cases h3 : c = Char.ofNat 8
  · subst h3; exact parseSB_step f _ _ k s r h rfl
  by_cases h4 : c = Char.ofNat 12
  · subst h4; exact parseSB_step f _ _ k s r h rfl
  by_cases h5 : c = '\n'
  · subst h5; exact parseSB_step f _ _ k s r h rfl
  by_cases h6 : c = Char.ofNat 13
  · subst h6; exact parseSB_step f _ _ k s r h rfl
  by_cases h7 : c = '\t'
  · subst h7; exact parseSB_step f _ _ k s r h rfl
  by_cases h8 : c.toNat < 32
  · obtain ⟨m, hm, rfl⟩ : ∃ m, m < 32 ∧ Char.ofNat m = c :=
      ⟨c.toNat, h8, Char.ofNat_toNat c⟩
    interval_cases m <;>
      first
        | exact absurd rfl h3
        | exact absurd rfl h4
        | exact absurd rfl h5
        | exact absurd rfl h6
        | exact absurd rfl h7
        | exact parseSB_step f _ _ k s r h rfl
  · have hesc : escapeChar c = [c] := by
      rw [escapeChar, if_neg h1, if_neg h2, if_neg h3, if_neg h4, if_neg h5,
        if_neg h6, if_neg h7, if_neg h8]
    rw [hesc, List.singleton_append]
    simp only [parseStringBody]
    rw [if_neg h1, if_neg h2, if_neg h8, h]
    rfl

theorem parseStringBody_escape (l r : List Char) :
    ∀ f, l.length < f →
    parseStringBody f (escapeStr l ++ '"' :: r) = some (l, r) := by
  induction l with
  | nil =>
    intro f hf
    match f, hf with
    | f' + 1, _ => exact rfl
  | cons c tl ih =>
    intro f hf
    match f, hf with
    | f' + 1, hf =>
      rw [escapeStr, List.append_assoc]
      exact parseStringBody_escapeChar f' c _ tl r
        (ih f' (by simpa using Nat.lt_of_succ_lt_succ hf))

theorem escapeChar_length_pos (c : Char) : 1 ≤ (escapeChar c).length := by
  unfold escapeChar
  repeat' split
  all_goals simp

theorem escapeStr_length (l : List Char) : l.length ≤ (escapeStr l).length := by
  induction l with
  | nil => simp [escapeStr]
  | cons c tl ih =>
    rw [escapeStr]
    simp only [List.length_append, List.length_cons]
    have := escapeChar_length_pos c
    omega

theorem parseStr_escape (l r : List Char) :
    parseStr (escapeStr l ++ '"' :: r) = some (l, r) := by
  unfold parseStr
  apply parseStringBody_escape
  have := escapeStr_length l
  simp only [List.length_append, List.length_cons]
  omega

theorem digitCh_toNat (d : Nat) (h : d < 10) : (digitCh d).toNat = 48 + d := by
  unfold digitCh
  exact charToNat_ofNat_valid _ (Or.inl (by omega))

theorem isDigitChar_digitCh (d : Nat) (h : d < 10) : isDigitChar (digitCh d) = true := by
  simp only [isDigitChar, digitCh_toNat d h]
  simp
  omega

theorem natChars_digits (m : Nat) (hm : m ≠ 0) :
    natChars m = ((Nat.digits 10 m).map digitCh).reverse := by
  unfold natChars
  rw [if_neg hm, natCharsAux_eq_digits m m le_rfl]

theorem natChars_all_digits (m : Nat) : ∀ c ∈ natChars m, isDigitChar c = true := by
  by_cases hm : m = 0
  · subst hm
    intro c hc
    simp [natChars] at hc
    subst hc
    decide
  · rw [natChars_digits m hm]
    intro c hc
    rw [List.mem_reverse, List.mem_map] at hc
    obtain ⟨d, hd, rfl⟩ := hc
    exact isDigitChar_digitCh d (Nat.digits_lt_base (by norm_num) hd)

theorem natChars_ne_nil (m : Nat) : natChars m ≠ [] := by
  by_cases hm : m = 0
  · subst hm; simp [natChars]
  · rw [natChars_digits m hm]
    simp [Nat.digits_ne_nil_iff_ne_zero.mpr hm]

theorem natChars_no_leading_zero (m : Nat) (hm : m ≠ 0) :
    (natChars m).head? ≠ some '0' := by
  rw [natChars_digits m hm]
  have hne : Nat.digits 10 m ≠ [] := Nat.digits_ne_nil_iff_ne_zero.mpr hm
  obtain ⟨l', a, hla⟩ := List.eq_nil_or_concat (Nat.digits 10 m) |>.resolve_left hne
  have hla' : Nat.digits 10 m = l' ++ [a] := by
    rw [hla, List.concat_eq_append]
  have ha10 : a < 10 := by
    apply Nat.digits_lt_base (by norm_num)
    rw [hla']
    simp
  have hlast : a ≠ 0 := by
    have h5 := Nat.getLast_digit_ne_zero 10 hm
    rwa [List.getLast_congr _ (by simp [hla']) hla', List.getLast_concat] at h5
  rw [hla']
  simp only [List.map_append, List.map_cons, List.map_nil, List.reverse_append,
    List.reverse_cons, List.reverse_nil, List.nil_append, List.cons_append,
    List.head?_cons]
  intro he
  have h0 : (digitCh a).toNat = 48 := by
    injection he with he'
    rw [he']
    decide
  rw [digitCh_toNat a ha10] at h0
  omega

theorem parseDigitsVal_append (xs : List Char) (c : Char) :
    parseDigitsVal (xs ++ [c]) = 10 * parseDigitsVal xs + (c.toNat - 48) := by
  unfold parseDigitsVal
  rw [List.foldl_append]
  rfl

theorem parseDigitsVal_digits (l : List Nat) (hl : ∀ d ∈ l, d < 10) :
    parseDigitsVal ((l.map digitCh).reverse) = Nat.ofDigits 10 l := by
  induction l with
  | nil => rfl
  | cons d tl ih =>
    simp only [List.map_cons, List.reverse_cons]
    rw [parseDigitsVal_append, ih (fun x hx => hl x (List.mem_cons_of_mem _ hx)),
      digitCh_toNat d (hl d (List.mem_cons_self _ _)), Nat.ofDigits_cons]
    omega

theorem parseDigitsVal_natChars (m : Nat) : parseDigitsVal (natChars m) = m := by
  by_cases hm : m = 0
  · subst hm; decide
  · rw [natChars_digits m hm,
      parseDigitsVal_digits _ (fun d hd => Nat.digits_lt_base (by norm_num) hd),
      Nat.ofDigits_digits]

theorem takeWhile_dropWhile_append (p : Char → Bool) (xs ys : List Char)
    (hxs : ∀ c ∈ xs, p c = true)
    (hys : ∀ c, ys.head? = some c → p c = false) :
    (xs ++ ys).takeWhile p = xs ∧ (xs ++ ys).dropWhile p = ys := by
  induction xs with
  | nil =>
    simp only [List.nil_append]
    cases ys with
    | nil => simp
    | cons y t =>
      have := hys y rfl
      simp [List.takeWhile_cons, List.dropWhile_cons, this]
  | cons x t ih =>
    have hx := hxs x (List.mem_cons_self _ _)
    have ⟨ih1, ih2⟩ := ih (fun c hc => hxs c (List.mem_cons_of_mem _ hc))
    simp [List.takeWhile_cons, List.dropWhile_cons, hx, ih1, ih2]

theorem parseNumAbs_natChars (m : Nat) (rest : List Char)
    (hrest : ∀ c, rest.head? = some c → isDigitChar c = false) :
    parseNumAbs (natChars m ++ rest) = some (m, rest) := by
  obtain ⟨htake, hdrop⟩ :=
    takeWhile_dropWhile_append isDigitChar (natChars m) rest
      (natChars_all_digits m) hrest
  unfold parseNumAbs
  rw [htake, hdrop]
  rw [if_neg (by simpa [List.isEmpty_iff] using natChars_ne_nil m)]
  rw [if_neg ?hlz]
  · rw [parseDigitsVal_natChars]
  case hlz =>
    by_cases hm : m = 0
    · subst hm
      intro hcon
      simp [natChars] at hcon
    · intro hcon
      exact natChars_no_leading_zero m hm hcon.1

theorem parseNumber_intChars (n : Int) (rest : List Char)
    (hrest : ∀ c, rest.head? = some c → isDigitChar c = false) :
    parseNumber (intChars n ++ rest) = some (.vNum n, rest) := by
  by_cases hn : n < 0
  · have : intChars n = '-' :: natChars n.natAbs := by
      unfold intChars
      rw [if_pos hn]
    rw [this, List.cons_append]
    simp only [parseNumber]
    rw [parseNumAbs_natChars n.natAbs rest hrest]
    have he : -(n.natAbs : Int) = n := by omega
    show some (Value.vNum (-(n.natAbs : Int)), rest) = some (Value.vNum n, rest)
    rw [he]
  · have hichars : intChars n = natChars n.toNat := by
      unfold intChars
      rw [if_neg hn]
    obtain ⟨c, cs', hc⟩ : ∃ c cs', natChars n.toNat = c :: cs' := by
      cases hnc : natChars n.toNat with
      | nil => exact absurd hnc (natChars_ne_nil _)
      | cons c cs' => exact ⟨c, cs', rfl⟩
    have hdig : isDigitChar c = true := by
      apply natChars_all_digits n.toNat
      rw [hc]
      exact List.mem_cons_self _ _
    have hcm : c ≠ '-' := by
      intro he
      rw [he] at hdig
      exact absurd hdig (by decide)
    rw [hichars, hc, List.cons_append]
    have habs : parseNumAbs (c :: (cs' ++ rest)) = some (n.toNat, rest) := by
      rw [← List.cons_append, ← hc]
      exact parseNumAbs_natChars n.toNat rest hrest
    simp only [parseNumber]
    split
    · next heq =>
      injection heq with h1 h2
      exact (hcm h1).elim
    · rw [habs]
      have he : (n.toNat : Int) = n := by omega
      show some (Value.vNum (n.toNat : Int), rest) = some (Value.vNum n, rest)
      rw [he]

/-- Key uniqueness of a JS object layer (objects built by JS semantics
always satisfy it). -/
def noDupKeysB : Fields → Bool
  | .fnil => true
  | .fcons k _ tl => !(decide (k ∈ tl.keys)) && noDupKeysB tl

mutual

/-- Well-formed definite value: no `undefined` inside, and every object
layer has pairwise-distinct keys.  `JSON.parse` outputs are well formed. -/
def Value.wfB : Value → Bool
  | .vNull => true
  | .vUndef => false
  | .vBool _ => true
  | .vNum _ => true
  | .vStr _ => true
  | .vArr es => es.wfB
  | .vObj fs => noDupKeysB fs && fs.wfB

/-- Well-formedness of array elements. -/
def ValueList.wfB : ValueList → Bool
  | .nil => true
  | .cons v tl => v.wfB && tl.wfB

/-- Well-formedness of object property values. -/
def Fields.wfB : Fields → Bool
  | .fnil => true
  | .fcons _ v tl => v.wfB && tl.wfB

end

/-- Concatenation of two property lists. -/
def fAppend : Fields → Fields → Fields
  | .fnil, g => g
  | .fcons k v tl, g => .fcons k v (fAppend tl g)

/-- Accumulating object construction as performed by `parseObjFields`. -/
def objSetFold : Fields → Fields → Fields
  | acc, .fnil => acc
  | acc, .fcons k v tl => objSetFold (acc.set k v) tl

/-- Concatenation of two element lists. -/
def vlConcat : ValueList → ValueList → ValueList
  | .nil, b => b
  | .cons v tl, b => .cons v (vlConcat tl b)

/-- Accumulating array construction as performed by `parseArrElems`. -/
def arrFold : ValueList → ValueList → ValueList
  | acc, .nil => acc
  | acc, .cons v tl => arrFold (vlAppend acc v) tl

theorem fAppend_fnil (f : Fields) : fAppend f .fnil = f := by
  induction f with
  | fnil => rfl
  | fcons k v tl ih => simp [fAppend, ih]

theorem fAppend_assoc (a b c : Fields) :
    fAppend (fAppend a b) c = fAppend a (fAppend b c) := by
  induction a with
  | fnil => rfl
  | fcons k v tl ih => simp [fAppend, ih]

theorem Fields.keys_set_of_not_mem (f : Fields) (k : String) (v : Value)
    (h : k ∉ f.keys) : (f.set k v).keys = f.keys ++ [k] := by
  induction f with
  | fnil => simp [Fields.set, Fields.keys]
  | fcons k0 v0 tl ih =>
    simp only [Fields.keys, List.mem_cons, not_or] at h
    simp [Fields.set, Ne.symm h.1, Fields.keys, ih h.2]

theorem Fields.set_of_not_mem (f : Fields) (k : String) (v : Value)
    (h : k ∉ f.keys) : f.set k v = fAppend f (.fcons k v .fnil) := by
  induction f with
  | fnil => rfl
  | fcons k0 v0 tl ih =>
    simp only [Fields.keys, List.mem_cons, not_or] at h
    simp [Fields.set, Ne.symm h.1, fAppend, ih h.2]

theorem objSetFold_eq_append (fs : Fields) : ∀ acc : Fields,
    (∀ k ∈ fs.keys, k ∉ acc.keys) → noDupKeysB fs = true →
    objSetFold acc fs = fAppend acc fs := by
  induction fs with
  | fnil => intro acc _ _; rw [objSetFold, fAppend_fnil]
  | fcons k v tl ih =>
    intro acc hdisj hnd
    simp only [noDupKeysB, Bool.and_eq_true, Bool.not_eq_true', decide_eq_false_iff_not] at hnd
    have hkacc : k ∉ acc.keys := hdisj k (by simp [Fields.keys])
    rw [objSetFold, ih (acc.set k v) ?hd hnd.2, Fields.set_of_not_mem _ _ _ hkacc,
      fAppend_assoc]
    · rfl
    case hd =>
      intro k' hk'
      rw [Fields.keys_set_of_not_mem _ _ _ hkacc]
      simp only [List.mem_append, List.mem_singleton, not_or]
      exact ⟨fun hmem => hdisj k' (by simp [Fields.keys, hk']) hmem,
        fun he => hnd.1 (he ▸ hk')⟩

/-- ValueList induction principle. -/
@[induction_eliminator]
theorem ValueList.valueListInduction {motive : ValueList → Prop} (nil : motive .nil)
    (cons : ∀ v tl, motive tl → motive (.cons v tl)) :
    ∀ es, motive es
  | .nil => nil
  | .cons v tl => cons v tl (ValueList.valueListInduction nil cons tl)

theorem vlConcat_nil (es : ValueList) : vlConcat es .nil = es := by
  induction es with
  | nil => rfl
  | cons v tl ih => simp [vlConcat, ih]

theorem vlConcat_assoc (a b c : ValueList) :
    vlConcat (vlConcat a b) c = vlConcat a (vlConcat b c) := by
  induction a with
  | nil => rfl
  | cons v tl ih => simp [vlConcat, ih]

theorem vlAppend_eq_concat (a : ValueList) (v : Value) :
    vlAppend a v = vlConcat a (.cons v .nil) := by
  induction a with
  | nil => rfl
  | cons w tl ih => simp [vlAppend, vlConcat, ih]

theorem arrFold_eq_concat (es : ValueList) : ∀ acc : ValueList,
    arrFold acc es = vlConcat acc es := by
  induction es with
  | nil => intro acc; rw [arrFold, vlConcat_nil]
  | cons v tl ih =>
    intro acc
    rw [arrFold, ih, vlAppend_eq_concat, vlConcat_assoc]
    rfl

theorem strMkData (s : String) : String.mk s.data = s := rfl

theorem isDigitChar_facts (c : Char) (h : isDigitChar c = true) :
    isJsonWs c = false ∧ c ≠ ']' ∧ c ≠ '}' ∧ c ≠ ',' := by
  have hn : 48 ≤ c.toNat ∧ c.toNat ≤ 57 := by simpa [isDigitChar] using h
  constructor
  · by_contra hw
    rw [Bool.not_eq_false] at hw
    have hws : c = ' ' ∨ c = '\t' ∨ c = '\n' ∨ c = '\r' := by
      simpa [isJsonWs] using hw
    rcases hws with h' | h' | h' | h' <;>
      · rw [h'] at hn
        revert hn
        decide
  refine ⟨?_, ?_, ?_⟩ <;>
    · intro he
      rw [he] at hn
      revert hn
      decide

/-- First character of a serialized value: never whitespace, a closing
bracket, a closing brace or a comma. -/
theorem stringifyV_head (v : Value) :
    ∃ c cs', stringifyV v = c :: cs' ∧ isJsonWs c = false ∧
      c ≠ ']' ∧ c ≠ '}' ∧ c ≠ ',' := by
  cases v with
  | vNull => exact ⟨'n', _, rfl, by decide, by decide, by decide, by decide⟩
  | vUndef => exact ⟨'u', _, rfl, by decide, by decide, by decide, by decide⟩
  | vBool b =>
    cases b
    · exact ⟨'f', _, rfl, by decide, by decide, by decide, by decide⟩
    · exact ⟨'t', _, rfl, by decide, by decide, by decide, by decide⟩
  | vStr s => exact ⟨'"', _, rfl, by decide, by decide, by decide, by decide⟩
  | vArr es => exact ⟨'[', _, rfl, by decide, by decide, by decide, by decide⟩
  | vObj fs => exact ⟨'{', _, rfl, by decide, by decide, by decide, by decide⟩
  | vNum n =>
    show ∃ c cs', intChars n = c :: cs' ∧ _
    by_cases hn : n < 0
    · exact ⟨'-', natChars n.natAbs, by rw [intChars, if_pos hn], by decide,
        by decide, by decide, by decide⟩
    · have hich : intChars n = natChars n.toNat := by rw [intChars, if_neg hn]
      obtain ⟨c, cs', hc⟩ : ∃ c cs', natChars n.toNat = c :: cs' := by
        cases hnc : natChars n.toNat with
        | nil => exact absurd hnc (natChars_ne_nil _)
        | cons c cs' => exact ⟨c, cs', rfl⟩
      have hdig : isDigitChar c = true := by
        apply natChars_all_digits n.toNat
        rw [hc]
        exact List.mem_cons_self _ _
      obtain ⟨hw, hb, hbr, hcm⟩ := isDigitChar_facts c hdig
      exact ⟨c, cs', by rw [hich, hc], hw, hb, hbr, hcm⟩

theorem quoteChars_length (l : List Char) :
    (quoteChars l).length = (escapeStr l).length + 2 := by
  simp [quoteChars]

theorem numHead_facts (c : Char) (hc : c = '-' ∨ isDigitChar c = true) :
    c ≠ 't' ∧ c ≠ 'f' ∧ c ≠ 'n' ∧ c ≠ '{' ∧ c ≠ '[' ∧ c ≠ '"' := by
  rcases hc with rfl | hd
  · refine ⟨by decide, by decide, by decide, by decide, by decide, by decide⟩
  · have hn : 48 ≤ c.toNat ∧ c.toNat ≤ 57 := by simpa [isDigitChar] using hd
    refine ⟨?_, ?_, ?_, ?_, ?_, ?_⟩ <;>
      · intro he
        rw [he] at hn
        revert hn
        decide

theorem intChars_head (n : Int) :
    ∃ c cs', intChars n = c :: cs' ∧ (c = '-' ∨ isDigitChar c = true) := by
  by_cases hn : n < 0
  · exact ⟨'-', natChars n.natAbs, by rw [intChars, if_pos hn], Or.inl rfl⟩
  · have hich : intChars n = natChars n.toNat := by rw [intChars, if_neg hn]
    cases hnc : natChars n.toNat with
    | nil => exact absurd hnc (natChars_ne_nil _)
    | cons c cs' =>
      refine ⟨c, cs', by rw [hich, hnc], Or.inr ?_⟩
      apply natChars_all_digits n.toNat
      rw [hnc]
      exact List.mem_cons_self _ _

theorem Value.wfB_ne_undef (v : Value) (h : v.wfB = true) : v ≠ .vUndef := by
  intro he
  rw [he] at h
  exact absurd h (by decide)

theorem objEntries_cons_of_wf (k : String) (v : Value) (tl : Fields)
    (hv : v.wfB = true) :
    objEntries (.fcons k v tl) =
      (quoteChars k.data ++ ':' :: stringifyV v) :: objEntries tl := by
  have hne := Value.wfB_ne_undef v hv
  cases v with
  | vUndef => exact absurd rfl hne
  | vNull => rfl
  | vBool b => rfl
  | vNum n => rfl
  | vStr s => rfl
  | vArr es => rfl
  | vObj fs => rfl

theorem arrBody_single_of_wf (v : Value) (hv : v.wfB = true) :
    arrBody (.cons v .nil) = stringifyV v := by
  have hne := Value.wfB_ne_undef v hv
  cases v with
  | vUndef => exact absurd rfl hne
  | vNull => rfl
  | vBool b => rfl
  | vNum n => rfl
  | vStr s => rfl
  | vArr es => rfl
  | vObj fs => rfl

theorem arrBody_cons2_of_wf (v w : Value) (tl : ValueList) (hv : v.wfB = true) :
    arrBody (.cons v (.cons w tl)) = stringifyV v ++ ',' :: arrBody (.cons w tl) := by
  have hne := Value.wfB_ne_undef v hv
  cases v with
  | vUndef => exact absurd rfl hne
  | vNull => rfl
  | vBool b => rfl
  | vNum n => rfl
  | vStr s => rfl
  | vArr es => rfl
  | vObj fs => rfl

theorem objEntries_ne_nil_of_wf (k : String) (v : Value) (tl : Fields)
    (hwf : (Fields.fcons k v tl).wfB = true) :
    objEntries (.fcons k v tl) ≠ [] := by
  have hv : v.wfB = true := by
    simp only [Fields.wfB, Bool.and_eq_true] at hwf
    exact hwf.1
  rw [objEntries_cons_of_wf k v tl hv]
  simp

mutual

/-- `parseV` inverts `stringifyV` on well-formed values, given enough fuel
and a following input that cannot extend a number literal. -/
theorem parseRT_v : ∀ (v : Value) (rest : List Char) (f : Nat),
    v.wfB = true → (stringifyV v).length ≤ f →
    (∀ c, rest.head? = some c → isDigitChar c = false) →
    parseV f (stringifyV v ++ rest) = some (v, rest)
  | .vNull, rest, f, _, hf, _ => by
    obtain ⟨g, rfl⟩ : ∃ g, f = g + 1 :=
      ⟨f - 1, by simp [stringifyV] at hf; omega⟩
    exact rfl
  | .vUndef, rest, f, hwf, _, _ => absurd hwf (by decide)
  | .vBool true, rest, f, _, hf, _ => by
    obtain ⟨g, rfl⟩ : ∃ g, f = g + 1 :=
      ⟨f - 1, by simp [stringifyV] at hf; omega⟩
    exact rfl
  | .vBool false, rest, f, _, hf, _ => by
    obtain ⟨g, rfl⟩ : ∃ g, f = g + 1 :=
      ⟨f - 1, by simp [stringifyV] at hf; omega⟩
    exact rfl
  | .vNum n, rest, f, _, hf, hrest => by
    obtain ⟨c, cs', hhead, hc⟩ := intChars_head n
    obtain ⟨g, rfl⟩ : ∃ g, f = g + 1 := by
      refine ⟨f - 1, ?_⟩
      have : (stringifyV (.vNum n)).length = cs'.length + 1 := by
        show (intChars n).length = cs'.length + 1
        rw [hhead]
        rfl
      omega
    obtain ⟨hn1, hn2, hn3, hn4, hn5, hn6⟩ := numHead_facts c hc
    have hwsc : isJsonWs c = false := by
      rcases hc with rfl | hd
      · decide
      · exact (isDigitChar_facts c hd).1
    have hshape : stringifyV (.vNum n) ++ rest = c :: (cs' ++ rest) := by
      show intChars n ++ rest = c :: (cs' ++ rest)
      rw [hhead]
      rfl
    rw [hshape]
    simp only [parseV]
    rw [skipWs_cons_of_not_ws c _ hwsc]
    split
    · next heq => injection heq with h1 _; exact absurd h1 hn1
    · next heq => injection heq with h1 _; exact absurd h1 hn2
    · next heq => injection heq with h1 _; exact absurd h1 hn3
    · next heq => injection heq with h1 _; exact absurd h1 hn4
    · next heq => injection heq with h1 _; exact absurd h1 hn5
    · next heq => injection heq with h1 _; exact absurd h1 hn6
    · rw [← List.cons_append, ← hhead]
      show parseNumber (intChars n ++ rest) = some (.vNum n, rest)
      exact parseNumber_intChars n rest hrest
  | .vStr s, rest, f, _, hf, _ => by
    obtain ⟨g, rfl⟩ : ∃ g, f = g + 1 := by
      refine ⟨f - 1, ?_⟩
      have h2 := quoteChars_length s.data
      have : (stringifyV (.vStr s)).length = (quoteChars s.data).length := rfl
      omega
    have hshape : stringifyV (.vStr s) ++ rest =
        '"' :: (escapeStr s.data ++ '"' :: rest) := by
      show quoteChars s.data ++ rest = _
      simp [quoteChars]
    rw [hshape]
    simp only [parseV]
    rw [skipWs_cons_of_not_ws '"' _ (by decide)]
    simp only []
    rw [parseStr_escape s.data rest]
  | .vArr es, rest, f, hwf, hf, _ => by
    obtain ⟨g, rfl⟩ : ∃ g, f = g + 1 := by
      refine ⟨f - 1, ?_⟩
      have : (stringifyV (.vArr es)).length = (arrBody es).length + 2 := by
        show ('[' :: (arrBody es ++ [']'])).length = _
        simp
      omega
    cases es with
    | nil => exact rfl
    | cons v1 tl =>
      have hwf' : v1.wfB = true ∧ tl.wfB = true := by
        simpa [Value.wfB, ValueList.wfB] using hwf
      obtain ⟨c, cs', hhead, hwsc, hbr, _, _⟩ := stringifyV_head v1
      have hX : ∃ X, arrBody (.cons v1 tl) = c :: X := by
        cases tl with
        | nil =>
          exact ⟨cs', by rw [arrBody_single_of_wf v1 hwf'.1, hhead]⟩
        | cons w tl2 =>
          refine ⟨cs' ++ ',' :: arrBody (.cons w tl2), ?_⟩
          rw [arrBody_cons2_of_wf v1 w tl2 hwf'.1, hhead]
          simp
      obtain ⟨X, hX⟩ := hX
      have hshape : stringifyV (.vArr (.cons v1 tl)) ++ rest =
          '[' :: (arrBody (.cons v1 tl) ++ ']' :: rest) := by
        show ('[' :: (arrBody (.cons v1 tl) ++ [']'])) ++ rest = _
        simp
      rw [hshape]
      simp only [parseV]
      rw [skipWs_cons_of_not_ws '[' _ (by decide)]
      simp only []
      rw [hX, List.cons_append, skipWs_cons_of_not_ws c _ hwsc]
      split
      · next heq => injection heq with h1 _; exact absurd h1 hbr
      · rw [← List.cons_append, ← hX,
          parseRT_arr (.cons v1 tl) rest .nil g (by simp)
            (by simpa [Value.wfB] using hwf)
            (by
              have : (stringifyV (.vArr (.cons v1 tl))).length =
                  (arrBody (.cons v1 tl)).length + 2 := by
                show ('[' :: (arrBody (.cons v1 tl) ++ [']'])).length = _
                simp
              omega),
          arrFold_eq_concat]
        rfl
  | .vObj fs, rest, f, hwf, hf, _ => by
    obtain ⟨g, rfl⟩ : ∃ g, f = g + 1 := by
      refine ⟨f - 1, ?_⟩
      have : (stringifyV (.vObj fs)).length = (joinComma (objEntries fs)).length + 2 := by
        show ('{' :: (joinComma (objEntries fs) ++ ['}'])).length = _
        simp
      omega
    cases fs with
    | fnil => exact rfl
    | fcons k v tl =>
      have hwf' : (noDupKeysB (.fcons k v tl) = true) ∧
          (Fields.fcons k v tl).wfB = true := by
        simpa [Value.wfB] using hwf
      have hv : v.wfB = true ∧ tl.wfB = true := by
        simpa [Fields.wfB] using hwf'.2
      have hE := objEntries_cons_of_wf k v tl hv.1
      have hX : ∃ X, joinComma (objEntries (.fcons k v tl)) = '"' :: X := by
        rw [hE]
        cases htl : objEntries tl with
        | nil =>
          refine ⟨escapeStr k.data ++ '"' :: (':' :: stringifyV v), ?_⟩
          show quoteChars k.data ++ ':' :: stringifyV v = _
          simp [quoteChars]
        | cons e2 es2 =>
          refine ⟨(escapeStr k.data ++ '"' :: (':' :: stringifyV v)) ++
            ',' :: joinComma (e2 :: es2), ?_⟩
          show (quoteChars k.data ++ ':' :: stringifyV v) ++
            ',' :: joinComma (e2 :: es2) = _
          simp [quoteChars]
      obtain ⟨X, hX⟩ := hX
      have hshape : stringifyV (.vObj (.fcons k v tl)) ++ rest =
          '{' :: (joinComma (objEntries (.fcons k v tl)) ++ '}' :: rest) := by
        show ('{' :: (joinComma (objEntries (.fcons k v tl)) ++ ['}'])) ++ rest = _
        simp
      rw [hshape]
      simp only [parseV]
      rw [skipWs_cons_of_not_ws '{' _ (by decide)]
      simp only []
      rw [hX, List.cons_append, skipWs_cons_of_not_ws '"' _ (by decide)]
      split
      · next heq => injection heq with h1 _; exact absurd h1 (by decide)
      · rw [← List.cons_append, ← hX,
          parseRT_obj (.fcons k v tl) rest .fnil g (by simp) hwf'.1 hwf'.2
            (by
              have : (stringifyV (.vObj (.fcons k v tl))).length =
                  (joinComma (objEntries (.fcons k v tl))).length + 2 := by
                show ('{' :: (joinComma (objEntries (.fcons k v tl)) ++ ['}'])).length = _
                simp
              omega),
          objSetFold_eq_append _ _ (by simp [Fields.keys]) hwf'.1]
        rfl

/-- `parseObjFields` parses the serialized entries of a nonempty
well-formed object followed by a closing brace. -/
theorem parseRT_obj : ∀ (fs : Fields) (rest : List Char) (acc : Fields) (f : Nat),
    fs ≠ .fnil → noDupKeysB fs = true → fs.wfB = true →
    (joinComma (objEntries fs)).length < f →
    parseObjFields f (joinComma (objEntries fs) ++ '}' :: rest) acc =
      some (.vObj (objSetFold acc fs), rest)
  | .fnil, _, _, _, hne, _, _, _ => absurd rfl hne
  | .fcons k v tl, rest, acc, f, _, hnd, hwf, hflen => by
    have hv : v.wfB = true ∧ tl.wfB = true := by simpa [Fields.wfB] using hwf
    have hndp : (k ∈ tl.keys → False) ∧ noDupKeysB tl = true := by
      simpa [noDupKeysB] using hnd
    have hE := objEntries_cons_of_wf k v tl hv.1
    obtain ⟨g, rfl⟩ : ∃ g, f = g + 1 := ⟨f - 1, by omega⟩
    have hqlen := quoteChars_length k.data
    cases htl : objEntries tl with
    | nil =>
      have htlnil : tl = .fnil := by
        cases tl with
        | fnil => rfl
        | fcons k2 v2 tl2 =>
          exact absurd htl (objEntries_ne_nil_of_wf k2 v2 tl2 hv.2)
      subst htlnil
      have hbody : joinComma (objEntries (.fcons k v .fnil)) =
          quoteChars k.data ++ ':' :: stringifyV v := by
        rw [hE]
        rfl
      rw [hbody] at hflen ⊢
      have hlen2 : (quoteChars k.data ++ ':' :: stringifyV v).length =
          (escapeStr k.data).length + 3 + (stringifyV v).length := by
        simp [hqlen]
        omega
      have hshape : (quoteChars k.data ++ ':' :: stringifyV v) ++ '}' :: rest =
          '"' :: (escapeStr k.data ++ '"' :: (':' :: (stringifyV v ++ '}' :: rest))) := by
        simp [quoteChars]
      rw [hshape]
      simp only [parseObjFields]
      rw [skipWs_cons_of_not_ws '"' _ (by decide)]
      simp only []
      rw [parseStr_escape]
      simp only []
      rw [skipWs_cons_of_not_ws ':' _ (by decide)]
      simp only []
      rw [parseRT_v v ('}' :: rest) g hv.1 (by omega)
        (fun c hc => by injection hc with hc'; rw [← hc']; decide)]
      simp only []
      rw [skipWs_cons_of_not_ws '}' _ (by decide)]
      exact rfl
    | cons e2 es2 =>
      have hbody : joinComma (objEntries (.fcons k v tl)) =
          (quoteChars k.data ++ ':' :: stringifyV v) ++ ',' :: joinComma (e2 :: es2) := by
        rw [hE, htl]
        rfl
      rw [hbody] at hflen ⊢
      have hlen2 : ((quoteChars k.data ++ ':' :: stringifyV v) ++
          ',' :: joinComma (e2 :: es2)).length =
          (escapeStr k.data).length + 4 + (stringifyV v).length +
            (joinComma (e2 :: es2)).length := by
        simp [hqlen]
        omega
      have hshape : ((quoteChars k.data ++ ':' :: stringifyV v) ++
            ',' :: joinComma (e2 :: es2)) ++ '}' :: rest =
          '"' :: (escapeStr k.data ++ '"' :: (':' :: (stringifyV v ++
            ',' :: (joinComma (e2 :: es2) ++ '}' :: rest)))) := by
        simp [quoteChars]
      rw [hshape]
      simp only [parseObjFields]
      rw [skipWs_cons_of_not_ws '"' _ (by decide)]
      simp only []
      rw [parseStr_escape]
      simp only []
      rw [skipWs_cons_of_not_ws ':' _ (by decide)]
      simp only []
      rw [parseRT_v v (',' :: (joinComma (e2 :: es2) ++ '}' :: rest)) g hv.1
        (by omega)
        (fun c hc => by injection hc with hc'; rw [← hc']; decide)]
      simp only []
      rw [skipWs_cons_of_not_ws ',' _ (by decide)]
      simp only []
      have htlne : tl ≠ .fnil := by
        intro he
        rw [he] at htl
        simp [objEntries] at htl
      rw [← htl, parseRT_obj tl rest (acc.set (String.mk k.data) v) g htlne
        hndp.2 hv.2 (by rw [htl]; omega)]
      rfl

/-- `parseArrElems` parses the serialized elements of a nonempty
well-formed array followed by a closing bracket. -/
theorem parseRT_arr : ∀ (es : ValueList) (rest : List Char) (acc : ValueList) (f : Nat),
    es ≠ .nil → es.wfB = true →
    (arrBody es).length < f →
    parseArrElems f (arrBody es ++ ']' :: rest) acc =
      some (.vArr (arrFold acc es), rest)
  | .nil, _, _, _, hne, _, _ => absurd rfl hne
  | .cons v1 tl, rest, acc, f, _, hwf, hflen => by
    have hwf' : v1.wfB = true ∧ tl.wfB = true := by
      simpa [ValueList.wfB] using hwf
    obtain ⟨g, rfl⟩ : ∃ g, f = g + 1 := ⟨f - 1, by omega⟩
    cases tl with
    | nil =>
      have hbody : arrBody (.cons v1 .nil) = stringifyV v1 :=
        arrBody_single_of_wf v1 hwf'.1
      rw [hbody] at hflen ⊢
      simp only [parseArrElems]
      rw [parseRT_v v1 (']' :: rest) g hwf'.1 (by omega)
        (fun c hc => by injection hc with hc'; rw [← hc']; decide)]
      exact rfl
    | cons w tl2 =>
      have hbody : arrBody (.cons v1 (.cons w tl2)) =
          stringifyV v1 ++ ',' :: arrBody (.cons w tl2) :=
        arrBody_cons2_of_wf v1 w tl2 hwf'.1
      rw [hbody] at hflen ⊢
      have hshape : (stringifyV v1 ++ ',' :: arrBody (.cons w tl2)) ++ ']' :: rest =
          stringifyV v1 ++ ',' :: (arrBody (.cons w tl2) ++ ']' :: rest) := by
        simp
      rw [hshape]
      simp only [parseArrElems]
      rw [parseRT_v v1 (',' :: (arrBody (.cons w tl2) ++ ']' :: rest)) g hwf'.1
        (by simp at hflen; omega)
        (fun c hc => by injection hc with hc'; rw [← hc']; decide)]
      simp only []
      rw [skipWs_cons_of_not_ws ',' _ (by decide)]
      simp only []
      rw [parseRT_arr (.cons w tl2) rest (vlAppend acc v1) g (by simp)
        hwf'.2 (by simp at hflen; omega)]
      rfl

end

/-- Top-level JSON round trip: parsing a serialized well-formed value
recovers the value. -/
theorem parseJson_stringifyJson (v : Value) (hwf : v.wfB = true) :
    parseJson (stringifyJson v) = some v := by
  unfold parseJson stringifyJson
  have hdata : (String.mk (stringifyV v)).data = stringifyV v := rfl
  rw [hdata]
  have h := parseRT_v v [] ((stringifyV v).length + 1) hwf (by omega)
    (fun c hc => by simp at hc)
  rw [List.append_nil] at h
  rw [h]
  rfl

/-! ## Instance token and settings layer

`getSettings`, `getToken`, `getKey` and `prepareSettingsForToken` from
`media.wysiwyg.instance.js`, on top of the JSON layer above. -/

/-- JS `\s` (whitespace class), as used by the `\S+` test in the generated
class-name filter of `prepareSettingsForToken`. -/
def isJsWs (c : Char) : Bool :=
  c = ' ' || c = '\t' || c = '\n' || c = '\r' ||
  c = Char.ofNat 11 || c = Char.ofNat 12 || c = Char.ofNat 0xa0 ||
  c = Char.ofNat 0x1680 || (0x2000 ≤ c.toNat && c.toNat ≤ 0x200a) ||
  c = Char.ofNat 0x2028 || c = Char.ofNat 0x2029 || c = Char.ofNat 0x202f ||
  c = Char.ofNat 0x205f || c = Char.ofNat 0x3000 || c = Char.ofNat 0xfeff

/-- First-occurrence string replacement, the semantics of JS
`String.prototype.replace` with a plain-string pattern. -/
def listReplaceFirst (pat repl : List Char) : List Char → List Char
  | [] => if pat.isEmpty then repl else []
  | c :: tl =>
    if pat.isPrefixOf (c :: tl) then repl ++ (c :: tl).drop pat.length
    else c :: listReplaceFirst pat repl tl

/-- JS `s.replace(pat, repl)` for a plain-string pattern (first occurrence
only). -/
def jsReplaceFirst (s pat repl : String) : String :=
  String.mk (listReplaceFirst pat.data repl.data s.data)

/-- Substring containment, the semantics of JS `indexOf(...) != -1`. -/
def listContains (needle : List Char) : List Char → Bool
  | [] => needle.isEmpty
  | c :: tl => needle.isPrefixOf (c :: tl) || listContains needle tl

/-- JS `hay.indexOf(needle) != -1`. -/
def strContainsB (hay needle : String) : Bool :=
  listContains needle.data hay.data

/-- The bracket stripping in `getSettings`:
`this.token.replace('[[', '').replace(']]', '')` (first occurrences only). -/
def stripTokenBrackets (t : String) : String :=
  jsReplaceFirst (jsReplaceFirst t "[[" "") "]]" ""

/-- The `SyntaxError` exception `JSON.parse` throws on malformed input,
modeled by its type name. -/
def jsonParseErrorMsg : String := "SyntaxError"

/-- A JSON-parsed array stored as `this.settings`: its own enumerable
properties are its decimal indices, in order. -/
def arrIndexFields : ValueList → Nat → Fields
  | .nil, _ => .fnil
  | .cons v tl, i => .fcons (toString i) v (arrIndexFields tl (i + 1))

/-- Outcome of `verifySettings()` when `this.settings` is a primitive parse
result: a falsy primitive hits the invalid-state guard; a truthy primitive
has no own properties (prototype members are outside this model), so the
schema walk throws at its first entry — the missing-required error for a
required property, or a strict-mode `TypeError` when assigning the default
to a property of a primitive — and with an empty schema the final type
check throws. -/
def verifyNonObjectMsg (schema : List (String × PropSchema)) (v : Value) : String :=
  if truthy v = false then "Invalid state: Cannot verify settings without settings."
  else
    match schema with
    | [] => wrongTypeMsg
    | (p, ps) :: _ => if ps.required then missingRequiredMsg p else "TypeError"

/-- Embeds `getSettings()`: cached settings are returned as-is; otherwise a
missing token throws, else the token is bracket-stripped, `JSON.parse`d,
stored and verified. Object results use their property map, array results
their index properties; primitive results make verification throw (see
`verifyNonObjectMsg`). -/
def getSettings (cfg : MediaConfig) (i : Inst) : Except String (Fields × Inst) :=
  match i.settings with
  | some s => .ok (s, i)
  | none =>
    if i.token = "" then .error "Instance missing basic info"
    else
      match parseJson (stripTokenBrackets i.token) with
      | none => .error jsonParseErrorMsg
      | some (.vObj fs) =>
        match verifySettings cfg fs with
        | .error e => .error e
        | .ok s2 => .ok (s2, { i with settings := some s2 })
      | some (.vArr es) =>
        match verifySettings cfg (arrIndexFields es 0) with
        | .error e => .error e
        | .ok s2 => .ok (s2, { i with settings := some s2 })
      | some v => .error (verifyNonObjectMsg cfg.tokenSchema v)

/-- JS loose equality `x == ''` for the check in `overrideLinkTitle`
(`settings[...] != ''`): numbers and booleans compare via `ToNumber`,
arrays via their joined string, `null`, `undefined` and plain objects are
never loosely equal to the empty string. -/
def jsLooseEqEmpty : Value → Bool
  | .vStr s => s = ""
  | .vNum n => n = 0
  | .vBool b => !b
  | .vNull => false
  | .vUndef => false
  | .vObj _ => false
  | .vArr es => arrJoinToString es = ""

/-- Embeds `overrideLinkTitle()`: with no truthy `attributeFields.title`
the current `link_text` is returned; otherwise the last settings property
whose name contains the title field name wins, unless it is undefined or
loosely equals the empty string. -/
def overrideLinkTitle (cfg : MediaConfig) (s : Fields) : Option Value :=
  match alook cfg.attributeFields "title" with
  | none => s.find? "link_text"
  | some titleField =>
    if titleField = "" then s.find? "link_text"
    else
      let name := s.keys.foldl (fun acc k => if strContainsB k titleField then k else acc) ""
      match s.find? name with
      | none => s.find? "link_text"
      | some v => if jsLooseEqEmpty v then s.find? "link_text" else some v

/-- The global `.replace(/</g, '&lt;').replace(/>/g, '&gt;')` applied to
`link_text` in `getToken`. -/
def escapeAnglesList : List Char → List Char
  | [] => []
  | c :: tl =>
    (if c = '<' then "&lt;".data else if c = '>' then "&gt;".data else [c]) ++
      escapeAnglesList tl

/-- String form of `escapeAnglesList`. -/
def escapeAngles (s : String) : String := String.mk (escapeAnglesList s.data)

/-- The `link_text` step of `getToken`: when `settings.link_text` is a
string it is replaced by the overridden title with angle brackets escaped;
calling `.replace` on a non-string override result throws a `TypeError`. -/
def linkTextStep (cfg : MediaConfig) (s : Fields) : Except String Fields :=
  match s.find? "link_text" with
  | some (.vStr _) =>
    match overrideLinkTitle cfg s with
    | some (.vStr t) => .ok (s.set "link_text" (.vStr (escapeAngles t)))
    | _ => .error "TypeError"
  | _ => .ok s

/-- Embeds `Drupal.media.WysiwygInstance.getOverridableFields(fid)`: the
file type is looked up by the string coercion of `fid`, and a truthy type
selects its field map, defaulting to the empty object. -/
def getOverridableFields (cfg : MediaConfig) (fid : Option Value) : Fields :=
  match alook cfg.fidTypeMap (valueToKeyO fid) with
  | some t =>
    if truthy t then
      match alook cfg.overridableFields (valueToKey t) with
      | some fields => fields
      | none => .fnil
    else .fnil
  | none => .fnil

/-- First loop of `prepareSettingsForToken`: every truthy schema-declared
settings property is deep-copied into the fresh `pristine` object. -/
def schemaCopy : List (String × PropSchema) → Fields → Fields → Fields
  | [], _, pristine => pristine
  | (p, _) :: rest, settings, pristine =>
    schemaCopy rest settings
      (match settings.find? p with
       | some v => if truthy v then pristine.set p (copyAsNew v) else pristine
       | none => pristine)

/-- Inner loop of the overridable-field copy: every settings property whose
name starts with `field + '['` is copied (by reference) into `pristine`. -/
def copyFieldProps (settings : Fields) (field : String) (pristine : Fields) : Fields :=
  settings.keys.foldl
    (fun pr p =>
      if strStartsWith p (field ++ "[") then
        match settings.find? p with
        | some v => pr.set p v
        | none => pr
      else pr) pristine

/-- Second loop of `prepareSettingsForToken`, over the overridable fields
of the instance file type. -/
def overridableCopy (fieldKeys : List String) (settings pristine : Fields) : Fields :=
  fieldKeys.foldl (fun pr f => copyFieldProps settings f pr) pristine

/-- JS `str.split(' ')` (single-space separator, empty pieces kept). -/
def splitOnSpaceCL : List Char → List Char → List String
  | [], acc => [String.mk acc.reverse]
  | c :: tl, acc =>
    if c = ' ' then String.mk acc.reverse :: splitOnSpaceCL tl []
    else splitOnSpaceCL tl (c :: acc)

/-- JS `str.split(' ')` on a string. -/
def jsSplitSpace (s : String) : List String := splitOnSpaceCL s.data []

/-- JS `arr.join(' ')`. -/
def joinSpaceStr : List String → String
  | [] => ""
  | [x] => x
  | x :: y :: tl => x ++ " " ++ joinSpaceStr (y :: tl)

/-- The generated class names removed by `prepareSettingsForToken`:
`media-element`, `/^file-\S+$/` and the three alignment classes. -/
def isGeneratedClass (cn : String) : Bool :=
  cn = "media-element" ||
  (strStartsWith cn "file-" && decide (5 < cn.data.length) &&
    (cn.data.drop 5).all (fun c => !isJsWs c)) ||
  cn = "media-wysiwyg-align-left" || cn = "media-wysiwyg-align-right" ||
  cn = "media-wysiwyg-align-center"

/-- The class filtering of `prepareSettingsForToken`: a truthy `class`
attribute is split on spaces, generated class names are dropped, and the
attribute is rewritten or deleted; `.split` on a truthy non-string value
throws a `TypeError`. -/
def classMunge (afs : Fields) : Except String Fields :=
  match afs.find? "class" with
  | some v =>
    if truthy v then
      match v with
      | .vStr s =>
        let classes := (jsSplitSpace s).filter (fun cn => !isGeneratedClass cn)
        if classes.isEmpty then .ok (afs.del "class")
        else .ok (afs.set "class" (.vStr (joinSpaceStr classes)))
      | _ => .error "TypeError"
    else .ok afs
  | none => .ok afs

/-- The attributes cleanup of `prepareSettingsForToken`. A truthy
`attributes` object gets its attribute-field keys, internal data
attributes and generated class names removed, and is dropped when no keys
remain. A truthy primitive only mutates a transient wrapper box, so a
nonempty string (whose own keys are its indices) survives unchanged while
a number or `true` (no own keys) is deleted; an array keeps its elements
and is deleted exactly when empty. -/
def attrsMunge (cfg : MediaConfig) (pristine : Fields) : Except String Fields :=
  match pristine.find? "attributes" with
  | some a =>
    if truthy a then
      match a with
      | .vObj afs =>
        let afs1 := (cfg.attributeFields.map Prod.fst).foldl (fun f attr => f.del attr) afs
        let afs2 := ((afs1.del "data-fid").del "data-media-element").del "data-media-key"
        match classMunge afs2 with
        | .error e => .error e
        | .ok afs3 =>
          if afs3.keys.isEmpty then .ok (pristine.del "attributes")
          else .ok (pristine.set "attributes" (.vObj afs3))
      | .vStr _ => .ok pristine
      | .vArr .nil => .ok (pristine.del "attributes")
      | .vArr (.cons _ _) => .ok pristine
      | _ => .ok (pristine.del "attributes")
    else .ok pristine
  | none => .ok pristine

/-- Embeds `prepareSettingsForToken()`: schema-declared truthy properties
are deep-copied, overridable field properties are copied, and the
`attributes` object is cleaned up. -/
def prepareSettingsForToken (cfg : MediaConfig) (settings : Fields) : Except String Fields :=
  attrsMunge cfg
    (overridableCopy (getOverridableFields cfg (settings.find? "fid")).keys settings
      (schemaCopy cfg.tokenSchema settings .fnil))

/-- Embeds `getToken()`: a truthy stored token is returned unchanged;
otherwise the settings are resolved, the `link_text` step runs, and the
prepared settings are stringified between `[[`/`]]` brackets and cached. -/
def getToken (cfg : MediaConfig) (i : Inst) : Except String (String × Inst) :=
  if i.token = "" then
    match getSettings cfg i with
    | .error e => .error e
    | .ok (s, i1) =>
      match linkTextStep cfg s with
      | .error e => .error e
      | .ok s1 =>
        match prepareSettingsForToken cfg s1 with
        | .error e => .error e
        | .ok pristine =>
          .ok ("[[" ++ stringifyJson (.vObj pristine) ++ "]]",
            { i1 with settings := some s1,
                      token := "[[" ++ stringifyJson (.vObj pristine) ++ "]]" })
  else .ok (i.token, i)

/-- Embeds `Drupal.media.WysiwygInstance.createKey(token)`. -/
def createKey (token : String) : String :=
  "token-" ++ toString (hashCode token)

/-- Embeds `getKey()`: a falsy key is recomputed as `createKey(getToken())`
and cached. -/
def getKey (cfg : MediaConfig) (i : Inst) : Except String (String × Inst) :=
  if i.key = "" then
    match getToken cfg i with
    | .error e => .error e
    | .ok (t, i1) => .ok (createKey t, { i1 with key := createKey t })
  else .ok (i.key, i)

theorem strDataAppend (a b : String) : (a ++ b).data = a.data ++ b.data := rfl

theorem createKey_ne_empty (t : String) : createKey t ≠ "" := by
  intro h
  have h2 := congrArg String.data h
  rw [createKey, strDataAppend] at h2
  simp at h2

/-- C2: `getKey()` returns `"token-" + hashCode(getToken())`, is stable
under repetition, and depends only on the resolved token text: on any two
instances (with consistent cached keys) whose `getToken()` results are the
same string, `getKey()` agrees. -/
theorem c2_getKey_spec (cfg cfg2 : MediaConfig) (i j i1 j1 : Inst) (t : String)
    (hki : i.key = "" ∨ (i.token ≠ "" ∧ i.key = createKey i.token))
    (hkj : j.key = "" ∨ (j.token ≠ "" ∧ j.key = createKey j.token))
    (hti : getToken cfg i = .ok (t, i1))
    (htj : getToken cfg2 j = .ok (t, j1)) :
    (∃ i2, getKey cfg i = .ok ("token-" ++ toString (hashCode t), i2) ∧
       getKey cfg i2 = .ok ("token-" ++ toString (hashCode t), i2)) ∧
    (∀ k i3 l j3, getKey cfg i = .ok (k, i3) → getKey cfg2 j = .ok (l, j3) →
       k = l) := by
  have main : ∀ (cfg0 : MediaConfig) (i0 i10 : Inst),
      i0.key = "" ∨ (i0.token ≠ "" ∧ i0.key = createKey i0.token) →
      getToken cfg0 i0 = .ok (t, i10) →
      ∃ i2, getKey cfg0 i0 = .ok (createKey t, i2) ∧
        getKey cfg0 i2 = .ok (createKey t, i2) := by
    intro cfg0 i0 i10 hk ht
    rcases hk with hk | ⟨htok, hk⟩
    · refine ⟨{ i10 with key := createKey t }, ?_, ?_⟩
      · rw [getKey, if_pos hk, ht]
      · rw [getKey, if_neg (by simpa using createKey_ne_empty t)]
    · rw [getToken, if_neg htok] at ht
      have ht' : i0.token = t ∧ i10 = i0 := by
        have := ht
        rw [Except.ok.injEq, Prod.mk.injEq] at this
        exact ⟨this.1, this.2.symm⟩
      refine ⟨i0, ?_, ?_⟩
      · rw [getKey, if_neg (by rw [hk]; exact createKey_ne_empty i0.token),
          hk, ht'.1]
      · rw [getKey, if_neg (by rw [hk]; exact createKey_ne_empty i0.token),
          hk, ht'.1]
  obtain ⟨i2, hgi, hgi2⟩ := main cfg i i1 hki hti
  obtain ⟨j2, hgj, _⟩ := main cfg2 j j1 hkj htj
  refine ⟨⟨i2, hgi, hgi2⟩, ?_⟩
  intro k i3 l j3 hk3 hl3
  rw [hgi] at hk3
  rw [hgj] at hl3
  rw [Except.ok.injEq, Prod.mk.injEq] at hk3 hl3
  rw [← hk3.1, ← hl3.1]

/-- Closed witness for C2 on a concrete token-backed instance. -/
theorem c2_getKey_spec_witness :
    (∃ i2, getKey c4cfg (newFromToken "[[x]]" "") =
        .ok ("token-" ++ toString (hashCode "[[x]]"), i2) ∧
       getKey c4cfg i2 = .ok ("token-" ++ toString (hashCode "[[x]]"), i2)) ∧
    (∀ k i3 l j3,
       getKey c4cfg (newFromToken "[[x]]" "") = .ok (k, i3) →
       getKey c4cfg (newFromToken "[[x]]" "") = .ok (l, j3) → k = l) :=
  c2_getKey_spec c4cfg c4cfg (newFromToken "[[x]]" "") (newFromToken "[[x]]" "")
    (newFromToken "[[x]]" "") (newFromToken "[[x]]" "") "[[x]]"
    (Or.inl rfl) (Or.inl rfl) rfl rfl

/-! ## Lemmas for the parse-serialize round trip of C3. -/

theorem Fields.find?_del_ne (f : Fields) (k p : String) (h : p ≠ k) :
    (f.del k).find? p = f.find? p := by
  induction f with
  | fnil => rfl
  | fcons k0 v0 tl ih =>
    by_cases hk0 : k0 = k
    · rw [Fields.del, if_pos hk0, Fields.find?,
        if_neg (by rw [hk0]; exact fun e => h e.symm), ih]
    · rw [Fields.del, if_neg hk0]
      by_cases hp : k0 = p
      · rw [Fields.find?, if_pos hp, Fields.find?, if_pos hp]
      · rw [Fields.find?, if_neg hp, Fields.find?, if_neg hp, ih]

mutual

theorem cloneValue_eq_self : ∀ v : Value, v.wfB = true → cloneValue v = v
  | .vNull, _ => rfl
  | .vUndef, h => absurd h (by decide)
  | .vBool _, _ => rfl
  | .vNum _, _ => rfl
  | .vStr _, _ => rfl
  | .vObj fs, h => by
    show Value.vObj (cloneFields fs) = Value.vObj fs
    rw [cloneFields_eq_self fs (by
      simp only [Value.wfB, Bool.and_eq_true] at h
      exact h.2)]
  | .vArr es, h => by
    show Value.vArr (cloneList es) = Value.vArr es
    rw [cloneList_eq_self es (by simpa [Value.wfB] using h)]

theorem cloneFields_eq_self : ∀ fs : Fields, fs.wfB = true → cloneFields fs = fs
  | .fnil, _ => rfl
  | .fcons k v tl, h => by
    have hv : v.wfB = true ∧ tl.wfB = true := by simpa [Fields.wfB] using h
    have hne := Value.wfB_ne_undef v hv.1
    cases v with
    | vUndef => exact absurd rfl hne
    | vNull =>
      show Fields.fcons k (cloneValue .vNull) (cloneFields tl) = _
      rw [cloneValue_eq_self _ hv.1, cloneFields_eq_self tl hv.2]
    | vBool b =>
      show Fields.fcons k (cloneValue (.vBool b)) (cloneFields tl) = _
      rw [cloneValue_eq_self _ hv.1, cloneFields_eq_self tl hv.2]
    | vNum n =>
      show Fields.fcons k (cloneValue (.vNum n)) (cloneFields tl) = _
      rw [cloneValue_eq_self _ hv.1, cloneFields_eq_self tl hv.2]
    | vStr s =>
      show Fields.fcons k (cloneValue (.vStr s)) (cloneFields tl) = _
      rw [cloneValue_eq_self _ hv.1, cloneFields_eq_self tl hv.2]
    | vObj fs2 =>
      show Fields.fcons k (cloneValue (.vObj fs2)) (cloneFields tl) = _
      rw [cloneValue_eq_self _ hv.1, cloneFields_eq_self tl hv.2]
    | vArr es2 =>
      show Fields.fcons k (cloneValue (.vArr es2)) (cloneFields tl) = _
      rw [cloneValue_eq_self _ hv.1, cloneFields_eq_self tl hv.2]

theorem cloneList_eq_self : ∀ es : ValueList, es.wfB = true → cloneList es = es
  | .nil, _ => rfl
  | .cons v tl, h => by
    have hv : v.wfB = true ∧ tl.wfB = true := by simpa [ValueList.wfB] using h
    show ValueList.cons (cloneValue v) (cloneList tl) = _
    rw [cloneValue_eq_self v hv.1, cloneList_eq_self tl hv.2]

end

theorem copyAsNew_eq_self (v : Value) (hwf : v.wfB = true)
    (hna : ∀ es, v ≠ .vArr es) : copyAsNew v = v := by
  cases v with
  | vArr es => exact absurd rfl (hna es)
  | vUndef => exact absurd hwf (by decide)
  | vObj fs =>
    show Value.vObj (cloneFields fs) = Value.vObj fs
    rw [cloneFields_eq_self fs (by
      simp only [Value.wfB, Bool.and_eq_true] at hwf
      exact hwf.2)]
  | vNull => rfl
  | vBool b => rfl
  | vNum n => rfl
  | vStr s => rfl

theorem linkTextStep_find_ne (cfg : MediaConfig) (s s1 : Fields) (p : String)
    (h : linkTextStep cfg s = .ok s1) (hp : p ≠ "link_text") :
    s1.find? p = s.find? p := by
  unfold linkTextStep at h
  cases hlt : s.find? "link_text" with
  | none => rw [hlt] at h; simp at h; rw [← h]
  | some v =>
    rw [hlt] at h
    cases v with
    | vStr t0 =>
      cases ho : overrideLinkTitle cfg s with
      | none => rw [ho] at h; simp at h
      | some w =>
        rw [ho] at h
        cases w with
        | vStr t =>
          simp only [Except.ok.injEq] at h
          rw [← h, Fields.find?_set_ne _ _ _ _ hp]
        | vNull => simp at h
        | vUndef => simp at h
        | vBool b => simp at h
        | vNum n => simp at h
        | vObj fs => simp at h
        | vArr es => simp at h
    | vNull => simp at h; rw [← h]
    | vUndef => simp at h; rw [← h]
    | vBool b => simp at h; rw [← h]
    | vNum n => simp at h; rw [← h]
    | vObj fs => simp at h; rw [← h]
    | vArr es => simp at h; rw [← h]

theorem schemaCopy_find_not_mem (schema : List (String × PropSchema))
    (s : Fields) (p : String) (hp : p ∉ schema.map Prod.fst) :
    ∀ acc : Fields, (schemaCopy schema s acc).find? p = acc.find? p := by
  induction schema with
  | nil => intro acc; rfl
  | cons hd tl ih =>
    obtain ⟨q, qs⟩ := hd
    simp only [List.map_cons, List.mem_cons, not_or] at hp
    intro acc
    rw [schemaCopy, ih hp.2]
    cases hq : s.find? q with
    | none => rfl
    | some v =>
      by_cases ht : truthy v = true
      · simp only [ht, if_true]
        rw [Fields.find?_set_ne _ _ _ _ hp.1]
      · simp only [Bool.not_eq_true] at ht
        simp only [ht]
        rfl

theorem schemaCopy_find (schema : List (String × PropSchema)) (s : Fields)
    (p : String) (hp : p ∈ schema.map Prod.fst)
    (hn : (schema.map Prod.fst).Nodup) :
    ∀ acc : Fields, (schemaCopy schema s acc).find? p =
      match s.find? p with
      | some v => if truthy v then some (copyAsNew v) else acc.find? p
      | none => acc.find? p := by
  induction schema with
  | nil => simp at hp
  | cons hd tl ih =>
    obtain ⟨q, qs⟩ := hd
    simp only [List.map_cons, List.nodup_cons] at hn
    intro acc
    rcases List.mem_cons.mp hp with heq | hmem
    · subst heq
      rw [schemaCopy, schemaCopy_find_not_mem tl s p hn.1]
      cases hq : s.find? p with
      | none => rfl
      | some v =>
        by_cases ht : truthy v = true
        · simp only [ht, if_true]
          rw [Fields.find?_set_self]
        · simp only [Bool.not_eq_true] at ht
          simp only [ht]
          rfl
    · have hqp : q ≠ p := by
        intro he
        exact hn.1 (he ▸ hmem)
      rw [schemaCopy, ih hmem hn.2]
      cases hq : s.find? q with
      | none => rfl
      | some v =>
        by_cases ht : truthy v = true
        · simp only [ht, if_true]
          rw [Fields.find?_set_ne _ _ _ _ (fun e => hqp e.symm)]
        · simp only [Bool.not_eq_true] at ht
          simp only [ht]
          rfl

theorem copyFieldProps_find_preserve (s : Fields) (field : String) (p : String)
    (hp : '[' ∈ p.data → False) :
    ∀ pr : Fields, (copyFieldProps s field pr).find? p = pr.find? p := by
  unfold copyFieldProps
  induction s.keys with
  | nil => intro pr; rfl
  | cons k ks ih =>
    intro pr
    rw [List.foldl_cons, ih]
    by_cases hk : strStartsWith k (field ++ "[") = true
    · simp only [hk, if_true]
      cases hv : s.find? k with
      | none => rfl
      | some v =>
        have hkp : k ≠ p := by
          intro he
          exact hp (he ▸ mem_lbracket_of_startsWith field k hk)
        show (pr.set k v).find? p = pr.find? p
        rw [Fields.find?_set_ne _ _ _ _ (fun e => hkp e.symm)]
    · simp only [Bool.not_eq_true] at hk
      simp only [hk, Bool.false_eq_true, if_false]

theorem overridableCopy_find_preserve (fieldKeys : List String) (s : Fields)
    (p : String) (hp : '[' ∈ p.data → False) :
    ∀ pr : Fields, (overridableCopy fieldKeys s pr).find? p = pr.find? p := by
  induction fieldKeys with
  | nil => intro pr; rfl
  | cons f fs ih =>
    intro pr
    rw [overridableCopy, List.foldl_cons]
    rw [show List.foldl (fun pr f => copyFieldProps s f pr) (copyFieldProps s f pr) fs
        = overridableCopy fs s (copyFieldProps s f pr) from rfl]
    rw [ih, copyFieldProps_find_preserve s f p hp]

theorem attrsMunge_find_ne (cfg : MediaConfig) (f g : Fields) (p : String)
    (h : attrsMunge cfg f = .ok g) (hp : p ≠ "attributes") :
    g.find? p = f.find? p := by
  unfold attrsMunge at h
  cases ha : f.find? "attributes" with
  | none => rw [ha] at h; simp at h; rw [← h]
  | some a =>
    rw [ha] at h
    by_cases ht : truthy a = true
    · simp only [ht, if_true] at h
      cases a with
      | vObj afs =>
        have h2 : (match classMunge (((((cfg.attributeFields.map Prod.fst).foldl
              (fun f attr => f.del attr) afs).del "data-fid").del
              "data-media-element").del "data-media-key") with
            | Except.error e => (Except.error e : Except String Fields)
            | Except.ok afs3 =>
              if afs3.keys.isEmpty = true then Except.ok (f.del "attributes")
              else Except.ok (f.set "attributes" (Value.vObj afs3))) =
            Except.ok g := h
        cases hcm : classMunge (((((cfg.attributeFields.map Prod.fst).foldl
            (fun f attr => f.del attr) afs).del "data-fid").del
            "data-media-element").del "data-media-key") with
        | error e => rw [hcm] at h2; simp at h2
        | ok afs3 =>
          rw [hcm] at h2
          by_cases hk : afs3.keys.isEmpty = true
          · simp only [hk, if_true, Except.ok.injEq] at h2
            rw [← h2, Fields.find?_del_ne _ _ _ hp]
          · simp only [Bool.not_eq_true] at hk
            simp only [hk, Bool.false_eq_true, if_false, Except.ok.injEq] at h2
            rw [← h2, Fields.find?_set_ne _ _ _ _ hp]
      | vStr s0 => simp at h; rw [← h]
      | vNull => simp at h; rw [← h, Fields.find?_del_ne _ _ _ hp]
      | vUndef => simp at h; rw [← h, Fields.find?_del_ne _ _ _ hp]
      | vBool b => simp at h; rw [← h, Fields.find?_del_ne _ _ _ hp]
      | vNum n => simp at h; rw [← h, Fields.find?_del_ne _ _ _ hp]
      | vArr es =>
        cases es with
        | nil => simp at h; rw [← h, Fields.find?_del_ne _ _ _ hp]
        | cons v tl => simp at h; rw [← h]
    · simp only [Bool.not_eq_true] at ht
      simp only [ht, Bool.false_eq_true, if_false, Except.ok.injEq] at h
      rw [← h]

theorem prepare_find_schema (cfg : MediaConfig) (s P : Fields) (p : String)
    (hPrep : prepareSettingsForToken cfg s = .ok P)
    (hp : p ∈ cfg.tokenSchema.map Prod.fst)
    (hn : (cfg.tokenSchema.map Prod.fst).Nodup)
    (hnb : '[' ∈ p.data → False)
    (hpa : p ≠ "attributes") :
    P.find? p =
      match s.find? p with
      | some v => if truthy v then some (copyAsNew v) else none
      | none => none := by
  unfold prepareSettingsForToken at hPrep
  rw [attrsMunge_find_ne cfg _ P p hPrep hpa,
    overridableCopy_find_preserve _ _ _ hnb,
    schemaCopy_find cfg.tokenSchema s p hp hn]
  cases s.find? p with
  | none => rfl
  | some v =>
    by_cases ht : truthy v = true
    · simp [ht]
    · simp only [Bool.not_eq_true] at ht
      simp [ht, Fields.find?]

/-! Bracket stripping on serialized tokens. -/

/-- Whether two given characters occur adjacently in the list. -/
def hasInfix2 (a b : Char) : List Char → Bool
  | [] => false
  | [_] => false
  | c :: d :: tl => (c = a && d = b) || hasInfix2 a b (d :: tl)

theorem stripLBrackets (l : List Char) :
    listReplaceFirst ['[', '['] [] ('[' :: '[' :: l) = l := by
  rw [listReplaceFirst, if_pos (by simp [List.isPrefixOf])]
  rfl

theorem stripRBrackets : ∀ l : List Char, hasInfix2 ']' ']' l = false →
    listReplaceFirst [']', ']'] [] (l ++ [']', ']']) = l
  | [], _ => rfl
  | [c], _ => by
    by_cases hc : c = ']'
    · subst hc
      rfl
    · show listReplaceFirst [']', ']'] [] (c :: [']', ']']) = [c]
      rw [listReplaceFirst,
        if_neg (by simp [List.isPrefixOf]; exact fun e => hc e.symm)]
      rfl
  | c :: d :: tl, h => by
    have h2 : ¬(c = ']' ∧ d = ']') ∧ hasInfix2 ']' ']' (d :: tl) = false := by
      rw [hasInfix2, Bool.or_eq_false_iff, Bool.and_eq_false_iff] at h
      constructor
      · intro ⟨hc, hd⟩
        rcases h.1 with h1 | h1 <;> simp [hc, hd] at h1
      · exact h.2
    show listReplaceFirst [']', ']'] [] (c :: ((d :: tl) ++ [']', ']'])) = _
    rw [listReplaceFirst, if_neg (by
      simp only [List.isPrefixOf, List.cons_append, Bool.and_eq_true, beq_iff_eq]
      intro hpre
      exact h2.1 ⟨hpre.1.symm, hpre.2.1.symm⟩)]
    rw [stripRBrackets (d :: tl) h2.2]

theorem stripTokenBrackets_roundtrip (J : String)
    (h : hasInfix2 ']' ']' J.data = false) :
    stripTokenBrackets ("[[" ++ J ++ "]]") = J := by
  unfold stripTokenBrackets jsReplaceFirst
  have hdata : ("[[" ++ J ++ "]]").data = '[' :: '[' :: (J.data ++ [']', ']']) := by
    rw [strDataAppend, strDataAppend]
    rfl
  rw [hdata]
  rw [show ("[[" : String).data = ['[', '['] from rfl,
    show ("" : String).data = [] from rfl,
    show ("]]" : String).data = [']', ']'] from rfl]
  rw [stripLBrackets]
  rw [show (String.mk (J.data ++ [']', ']'])).data = J.data ++ [']', ']'] from rfl]
  rw [stripRBrackets J.data h]

theorem token_wrap_ne_empty (J : String) : ("[[" ++ J ++ "]]") ≠ "" := by
  intro h
  have h2 := congrArg String.data h
  rw [strDataAppend, strDataAppend] at h2
  simp at h2

/-! Success of the schema walk when every required property is truthy. -/

theorem verifyAux_ok_of_required_truthy (schema : List (String × PropSchema))
    (hn : (schema.map Prod.fst).Nodup) :
    ∀ s : Fields,
      (∀ p ps, (p, ps) ∈ schema → ps.required = true → truthyO (s.find? p) = true) →
      ∃ g, verifySettingsAux schema s = .ok g := by
  induction schema with
  | nil => intro s _; exact ⟨s, rfl⟩
  | cons hd tl ih =>
    obtain ⟨q, qs⟩ := hd
    simp only [List.map_cons, List.nodup_cons] at hn
    intro s hreq
    cases hr : qs.required with
    | true =>
      have ht := hreq q qs (List.mem_cons_self _ _) hr
      obtain ⟨g, hg⟩ := ih hn.2 s
        (fun p ps hm hrp => hreq p ps (List.mem_cons_of_mem _ hm) hrp)
      exact ⟨g, by rw [verifySettingsAux, if_pos hr, if_pos ht, hg]⟩
    | false =>
      by_cases ht : truthyO (s.find? q) = true
      · obtain ⟨g, hg⟩ := ih hn.2 s
          (fun p ps hm hrp => hreq p ps (List.mem_cons_of_mem _ hm) hrp)
        exact ⟨g, by
          rw [verifySettingsAux, if_neg (by simp [hr]), if_pos ht, hg]⟩
      · simp only [Bool.not_eq_true] at ht
        have hs : ∀ p ps, (p, ps) ∈ tl → ps.required = true →
            truthyO ((s.set q (copyAsNew qs.default)).find? p) = true := by
          intro p ps hm hrp
          have hpq : q ≠ p := by
            intro he
            exact hn.1 (he ▸ List.mem_map_of_mem _ hm)
          rw [Fields.find?_set_ne _ _ _ _ (fun e => hpq e.symm)]
          exact hreq p ps (List.mem_cons_of_mem _ hm) hrp
        obtain ⟨g, hg⟩ := ih hn.2 (s.set q (copyAsNew qs.default)) hs
        exact ⟨g, by
          rw [verifySettingsAux, if_neg (by simp [hr]), if_neg (by simp [ht]), hg]⟩

theorem verifySettingsPost_ok (s : Fields)
    (h : s.find? "type" = some (.vStr "media")) :
    verifySettingsPost s = .ok s := by
  unfold verifySettingsPost
  rw [h]
  simp

theorem verifySettings_ok_type (cfg : MediaConfig) (s s2 : Fields)
    (h : verifySettings cfg s = .ok s2) :
    s2.find? "type" = some (.vStr "media") := by
  unfold verifySettings at h
  cases haux : verifySettingsAux cfg.tokenSchema s with
  | error e => rw [haux] at h; simp at h
  | ok s0 =>
    rw [haux] at h
    simp only [ebind_ok] at h
    unfold verifySettingsPost at h
    cases hty : s0.find? "type" with
    | none => rw [hty] at h; simp at h
    | some v =>
      rw [hty] at h
      cases v with
      | vStr t =>
        by_cases htm : t = "media"
        · subst htm
          simp only [if_true] at h
          simp only [Except.ok.injEq] at h
          rw [← h, hty]
        · simp [htm] at h
      | vNull => simp at h
      | vUndef => simp at h
      | vBool b => simp at h
      | vNum n => simp at h
      | vObj fs => simp at h
      | vArr es => simp at h

/-- C3 (amended): serialization actually runs only on an instance whose
token cache is empty (an instance constructed from a token returns that
token verbatim).  For settings `s0` produced by a successful schema
verification, if the `link_text` step and `prepareSettingsForToken`
succeed, the prepared object is well formed, its serialization contains no
internal `]]`, the schema keys are distinct, bracket-free and include
`type`, `attributes` and `link_text` are not required, and the
schema-declared values of `s0` and the schema defaults contain no
`undefined` and no top-level arrays, then `getToken` yields the serialized
token and re-resolving that token through `getSettings` reproduces `s0` on
every schema-declared field other than `attributes` and `link_text`. -/
theorem c3_parse_serialize_amended (cfg : MediaConfig) (orig s0 s1 P : Fields)
    (pb : String)
    (hver : verifySettings cfg orig = .ok s0)
    (hlt : linkTextStep cfg s0 = .ok s1)
    (hprep : prepareSettingsForToken cfg s1 = .ok P)
    (hn : (cfg.tokenSchema.map Prod.fst).Nodup)
    (hty : "type" ∈ cfg.tokenSchema.map Prod.fst)
    (hnb : ∀ p ∈ cfg.tokenSchema.map Prod.fst, '[' ∈ p.data → False)
    (hattr : ∀ ps : PropSchema, ("attributes", ps) ∈ cfg.tokenSchema →
      ps.required = false)
    (hltr : ∀ ps : PropSchema, ("link_text", ps) ∈ cfg.tokenSchema →
      ps.required = false)
    (hvals : ∀ p ∈ cfg.tokenSchema.map Prod.fst, ∀ v, s0.find? p = some v →
      v.wfB = true ∧ ∀ es, v ≠ .vArr es)
    (hwfP : (Value.vObj P).wfB = true)
    (hnoRB : hasInfix2 ']' ']' (stringifyJson (.vObj P)).data = false) :
    (∃ i1, getToken cfg
        { token := "", settings := some s0, key := "",
          placeholderBase := pb, placeholder := none } =
        .ok ("[[" ++ stringifyJson (.vObj P) ++ "]]", i1)) ∧
    ∃ s2 i2, getSettings cfg
        (newFromToken ("[[" ++ stringifyJson (.vObj P) ++ "]]") pb) =
        .ok (s2, i2) ∧
      ∀ p ∈ cfg.tokenSchema.map Prod.fst, p ≠ "attributes" → p ≠ "link_text" →
        s2.find? p = s0.find? p := by
  have haux := verifySettings_ok_inv cfg orig s0 hver
  -- Every required schema property is truthy in the prepared object.
  have hreqP : ∀ p ps, (p, ps) ∈ cfg.tokenSchema → ps.required = true →
      truthyO (P.find? p) = true := by
    intro p ps hm hrp
    have hp : p ∈ cfg.tokenSchema.map Prod.fst := List.mem_map_of_mem _ hm
    have hpa : p ≠ "attributes" := by
      intro e
      rw [e] at hm
      rw [hattr ps hm] at hrp
      exact Bool.false_ne_true hrp
    have hplt : p ≠ "link_text" := by
      intro e
      rw [e] at hm
      rw [hltr ps hm] at hrp
      exact Bool.false_ne_true hrp
    have hin := verifyAux_ok_required_truthy _ orig s0 p ps hn haux hm hrp
    have hs0p := verifyAux_ok_find_mem _ orig s0 p ps hn haux hm
    rw [if_pos hin] at hs0p
    have hs0t : truthyO (s0.find? p) = true := by rw [hs0p]; exact hin
    have hs1p : s1.find? p = s0.find? p := linkTextStep_find_ne cfg s0 s1 p hlt hplt
    have hPp := prepare_find_schema cfg s1 P p hprep hp hn (hnb p hp) hpa
    rw [hs1p] at hPp
    cases hv : s0.find? p with
    | none => rw [hv] at hs0t; simp [truthyO] at hs0t
    | some v =>
      rw [hv] at hPp hs0t
      have htv : truthy v = true := by simpa [truthyO] using hs0t
      have hPp2 : P.find? p = if truthy v then some (copyAsNew v) else none := hPp
      have hcv := copyAsNew_eq_self v (hvals p hp v hv).1 (hvals p hp v hv).2
      rw [hPp2, if_pos htv, hcv]
      simpa [truthyO] using htv
  obtain ⟨s2aux, hs2aux⟩ := verifyAux_ok_of_required_truthy cfg.tokenSchema hn P hreqP
  -- Schema-declared fields of the re-verified object agree with `s0`.
  have hs2find : ∀ p ∈ cfg.tokenSchema.map Prod.fst, p ≠ "attributes" →
      p ≠ "link_text" → s2aux.find? p = s0.find? p := by
    intro p hp hpa hplt
    obtain ⟨ps, hmps⟩ : ∃ ps, (p, ps) ∈ cfg.tokenSchema := by
      obtain ⟨e, hmem, hfst⟩ := List.mem_map.mp hp
      exact ⟨e.2, by rw [← hfst]; exact hmem⟩
    have hs0p := verifyAux_ok_find_mem _ orig s0 p ps hn haux hmps
    have hs2p := verifyAux_ok_find_mem _ P s2aux p ps hn hs2aux hmps
    have hs1p : s1.find? p = s0.find? p := linkTextStep_find_ne cfg s0 s1 p hlt hplt
    have hPp := prepare_find_schema cfg s1 P p hprep hp hn (hnb p hp) hpa
    rw [hs1p] at hPp
    cases hv : s0.find? p with
    | none =>
      exfalso
      rw [hv] at hs0p
      by_cases hto : truthyO (orig.find? p) = true
      · rw [if_pos hto] at hs0p
        rw [← hs0p] at hto
        simp [truthyO] at hto
      · rw [if_neg hto] at hs0p
        exact Option.noConfusion hs0p
    | some v =>
      rw [hv] at hPp hs0p
      have hPp2 : P.find? p = if truthy v then some (copyAsNew v) else none := hPp
      have hcv := copyAsNew_eq_self v (hvals p hp v hv).1 (hvals p hp v hv).2
      by_cases htv : truthy v = true
      · have hPv : P.find? p = some v := by rw [hPp2, if_pos htv, hcv]
        rw [hPv] at hs2p
        rw [hs2p, if_pos (by simpa [truthyO] using htv)]
      · simp only [Bool.not_eq_true] at htv
        have hPv : P.find? p = none := by rw [hPp2, htv]; simp
        rw [hPv] at hs2p
        have hs2v : s2aux.find? p = some (copyAsNew ps.default) := by
          rw [hs2p]
          simp [truthyO]
        by_cases hto : truthyO (orig.find? p) = true
        · exfalso
          rw [if_pos hto] at hs0p
          rw [← hs0p] at hto
          simp [truthyO, htv] at hto
        · rw [if_neg hto] at hs0p
          rw [hs2v]
          exact hs0p.symm
  have htypeeq : s2aux.find? "type" = s0.find? "type" :=
    hs2find "type" hty (by decide) (by decide)
  have hs0type := verifySettings_ok_type cfg orig s0 hver
  have hverP : verifySettings cfg P = .ok s2aux := by
    unfold verifySettings
    rw [hs2aux]
    simp only [ebind_ok]
    exact verifySettingsPost_ok _ (by rw [htypeeq, hs0type])
  constructor
  · -- getToken on the settings-backed instance serializes the prepared object.
    refine ⟨{ token := "[[" ++ stringifyJson (.vObj P) ++ "]]",
              settings := some s1, key := "", placeholderBase := pb,
              placeholder := none }, ?_⟩
    have e1 : getToken cfg
        { token := "", settings := some s0, key := "",
          placeholderBase := pb, placeholder := none } =
        match linkTextStep cfg s0 with
        | .error e => .error e
        | .ok s1x =>
          match prepareSettingsForToken cfg s1x with
          | .error e => .error e
          | .ok pr =>
            .ok ("[[" ++ stringifyJson (.vObj pr) ++ "]]",
              { token := "[[" ++ stringifyJson (.vObj pr) ++ "]]",
                settings := some s1x, key := "", placeholderBase := pb,
                placeholder := none }) := rfl
    rw [e1, hlt]
    show (match prepareSettingsForToken cfg s1 with
        | .error e => (.error e : Except String (String × Inst))
        | .ok pr =>
          (.ok ("[[" ++ stringifyJson (.vObj pr) ++ "]]",
            { token := "[[" ++ stringifyJson (.vObj pr) ++ "]]",
              settings := some s1, key := "", placeholderBase := pb,
              placeholder := none }) : Except String (String × Inst))) = _
    rw [hprep]
  · -- Re-resolving the serialized token succeeds and agrees on schema fields.
    refine ⟨s2aux, { token := "[[" ++ stringifyJson (.vObj P) ++ "]]",
                     settings := some s2aux, key := "", placeholderBase := pb,
                     placeholder := none }, ?_, hs2find⟩
    have g1 : getSettings cfg
        (newFromToken ("[[" ++ stringifyJson (.vObj P) ++ "]]") pb) =
        if ("[[" ++ stringifyJson (.vObj P) ++ "]]") = "" then
          .error "Instance missing basic info"
        else
          match parseJson (stripTokenBrackets
              ("[[" ++ stringifyJson (.vObj P) ++ "]]")) with
          | none => .error jsonParseErrorMsg
          | some (.vObj fs) =>
            match verifySettings cfg fs with
            | .error e => .error e
            | .ok s2 =>
              .ok (s2, { token := "[[" ++ stringifyJson (.vObj P) ++ "]]",
                         settings := some s2, key := "", placeholderBase := pb,
                         placeholder := none })
          | some (.vArr es) =>
            match verifySettings cfg (arrIndexFields es 0) with
            | .error e => .error e
            | .ok s2 =>
              .ok (s2, { token := "[[" ++ stringifyJson (.vObj P) ++ "]]",
                         settings := some s2, key := "", placeholderBase := pb,
                         placeholder := none })
          | some v => .error (verifyNonObjectMsg cfg.tokenSchema v) := rfl
    rw [g1, if_neg (token_wrap_ne_empty _),
      stripTokenBrackets_roundtrip _ hnoRB, parseJson_stringifyJson _ hwfP]
    show (match verifySettings cfg P with
        | .error e => (.error e : Except String (Fields × Inst))
        | .ok s2 =>
          (.ok (s2, { token := "[[" ++ stringifyJson (.vObj P) ++ "]]",
                      settings := some s2, key := "", placeholderBase := pb,
                      placeholder := none }) : Except String (Fields × Inst))) = _
    rw [hverP]

/-- Concrete configuration for the C3 chains: `type` and `fid` required,
`link_text` optional with empty default. -/
def c3cfg : MediaConfig :=
  { tokenSchema := [("type", ⟨true, .vNull⟩), ("fid", ⟨true, .vNull⟩),
      ("link_text", ⟨false, .vStr ""⟩)],
    wysiwygAllowedAttributes := [], attributeFields := [], overridableFields := [],
    fidTypeMap := [], tagMap := [], doLinkText := false, parseHtml := fun _ => [] }

/-- A schema-conforming token whose `link_text` contains a `<`. -/
def c3tok : String :=
  "[[\x7b\"type\":\"media\",\"fid\":\"1\",\"link_text\":\"a<b\"\x7d]]"

/-- The token produced by re-serializing the settings of `c3tok`. -/
def c3tok2 : String :=
  "[[\x7b\"type\":\"media\",\"fid\":\"1\",\"link_text\":\"a&lt;b\"\x7d]]"

/-- Settings parsed from `c3tok`. -/
def c3s0 : Fields :=
  .fcons "type" (.vStr "media")
    (.fcons "fid" (.vStr "1") (.fcons "link_text" (.vStr "a<b") .fnil))

/-- Settings after the `link_text` escaping step (also the prepared object
and the settings parsed from `c3tok2`). -/
def c3s2 : Fields :=
  .fcons "type" (.vStr "media")
    (.fcons "fid" (.vStr "1") (.fcons "link_text" (.vStr "a&lt;b") .fnil))

/-- Instance state after resolving `c3tok`. -/
def c3i0 : Inst := ⟨c3tok, some c3s0, "", "", none⟩

/-- Settings-backed instance (empty token cache) for `c3s0`. -/
def c3inst : Inst := ⟨"", some c3s0, "", "", none⟩

/-- Instance state after serializing `c3inst`. -/
def c3i1 : Inst := ⟨c3tok2, some c3s2, "", "", none⟩

/-- C3 counterexample: a token whose parsed settings satisfy the schema,
yet parse→serialize→parse changes the schema-declared field `link_text`
(its `<` is escaped to `&lt;` by `getToken`), so the round trip is not
structurally equivalent on every schema-declared field. -/
theorem c3_counterexample :
    getSettings c3cfg (newFromToken c3tok "") = .ok (c3s0, c3i0) ∧
    newFromSettings c3cfg c3s0 "" = .ok (c3inst, c3cfg) ∧
    getToken c3cfg c3inst = .ok (c3tok2, c3i1) ∧
    getSettings c3cfg (newFromToken c3tok2 "") = .ok (c3s2, c3i1) ∧
    "link_text" ∈ c3cfg.tokenSchema.map Prod.fst ∧
    c3s2.find? "link_text" ≠ c3s0.find? "link_text" :=
  ⟨rfl, rfl, rfl, rfl, by decide, fun h => by
    rw [show c3s2.find? "link_text" = some (Value.vStr "a&lt;b") from rfl,
      show c3s0.find? "link_text" = some (Value.vStr "a<b") from rfl,
      Option.some.injEq, Value.vStr.injEq] at h
    exact absurd h (by decide)⟩

/-- Closed witness for the amended C3 on the concrete chain. -/
theorem c3_parse_serialize_amended_witness :
    (∃ i1, getToken c3cfg
        { token := "", settings := some c3s0, key := "",
          placeholderBase := "", placeholder := none } =
        .ok ("[[" ++ stringifyJson (.vObj c3s2) ++ "]]", i1)) ∧
    ∃ s2 i2, getSettings c3cfg
        (newFromToken ("[[" ++ stringifyJson (.vObj c3s2) ++ "]]") "") =
        .ok (s2, i2) ∧
      ∀ p ∈ c3cfg.tokenSchema.map Prod.fst, p ≠ "attributes" → p ≠ "link_text" →
        s2.find? p = c3s0.find? p :=
  c3_parse_serialize_amended c3cfg c3s0 c3s0 c3s2 c3s2 "" rfl rfl rfl
    (by decide) (by decide) (by decide)
    (by intro ps h; simp [c3cfg] at h)
    (by intro ps h; simp [c3cfg] at h; subst h; rfl)
    (by
      intro p hp v hv
      simp [c3cfg] at hp
      rcases hp with rfl | rfl | rfl
      · rw [show c3s0.find? "type" = some (.vStr "media") from rfl] at hv
        injection hv with hv2
        exact hv2 ▸ ⟨rfl, fun es h => Value.noConfusion h⟩
      · rw [show c3s0.find? "fid" = some (.vStr "1") from rfl] at hv
        injection hv with hv2
        exact hv2 ▸ ⟨rfl, fun es h => Value.noConfusion h⟩
      · rw [show c3s0.find? "link_text" = some (.vStr "a<b") from rfl] at hv
        injection hv with hv2
        exact hv2 ▸ ⟨rfl, fun es h => Value.noConfusion h⟩)
    rfl rfl

/-! ## Placeholder DOM layer

Serialization (`outerHTML`), text content, anchor search and attribute
access on the `Node` model, for `setPlaceholder`, the placeholder sync and
`getPlaceholderBase`. -/

/-- Attribute-value escaping of the browser HTML serializer. -/
def escAttrList : List Char → List Char
  | [] => []
  | c :: tl =>
    (if c = '&' then "&amp;".data else if c = '"' then "&quot;".data else [c]) ++
      escAttrList tl

/-- Text-node escaping of the browser HTML serializer. -/
def escTextList : List Char → List Char
  | [] => []
  | c :: tl =>
    (if c = '&' then "&amp;".data
     else if c = '<' then "&lt;".data
     else if c = '>' then "&gt;".data
     else [c]) ++ escTextList tl

/-- HTML void elements, serialized without a closing tag. -/
def isVoidTag (t : String) : Bool :=
  t = "area" || t = "base" || t = "br" || t = "col" || t = "embed" ||
  t = "hr" || t = "img" || t = "input" || t = "link" || t = "meta" ||
  t = "param" || t = "source" || t = "track" || t = "wbr"

/-- Serialized attribute list (leading space before each attribute). -/
def attrsHtml (attrs : List (String × String)) : String :=
  attrs.foldl
    (fun acc a => acc ++ " " ++ a.1 ++ "=\"" ++ String.mk (escAttrList a.2.data) ++ "\"")
    ""

mutual

/-- `Drupal.media.utils.outerHTML` resolved through the browser
serializer. -/
def outerHTMLN : Node → String
  | .text s => String.mk (escTextList s.data)
  | .elem tag attrs children =>
    if isVoidTag tag then "<" ++ tag ++ attrsHtml attrs ++ ">"
    else
      "<" ++ tag ++ attrsHtml attrs ++ ">" ++ innerHTMLL children ++
        "</" ++ tag ++ ">"

/-- Serialization of a child list (`innerHTML`). -/
def innerHTMLL : NodeList → String
  | .nnil => ""
  | .ncons n tl => outerHTMLN n ++ innerHTMLL tl

end

mutual

/-- `.text()` of a single node: concatenated text descendants. -/
def textContentN : Node → String
  | .text s => s
  | .elem _ _ ch => textContentL ch

/-- `.text()` of a node list. -/
def textContentL : NodeList → String
  | .nnil => ""
  | .ncons n tl => textContentN n ++ textContentL tl

end

/-- `.text()` of a parsed HTML fragment (`$('<div>').append(html).text()`). -/
def textContentList (l : List Node) : String :=
  l.foldl (fun acc n => acc ++ textContentN n) ""

/-- Whether a node list contains an `img` element (at any depth) — the
`:has(img)` test. -/
def anyImg : NodeList → Bool
  | .nnil => false
  | .ncons (.text _) tl => anyImg tl
  | .ncons (.elem t _ ch) tl => t = "img" || anyImg ch || anyImg tl

mutual

/-- First match of `a:not(:has(img))` in preorder, the node itself
included. -/
def findAnchorN : Node → Option Node
  | .text _ => none
  | .elem t a ch =>
    if t = "a" && !anyImg ch then some (.elem t a ch) else findAnchorL ch

/-- First match of `a:not(:has(img))` within a node list. -/
def findAnchorL : NodeList → Option Node
  | .nnil => none
  | .ncons n tl =>
    match findAnchorN n with
    | some a => some a
    | none => findAnchorL tl

end

/-- jQuery `.attr(name)` on an element (first attribute occurrence; text
nodes have no attributes). -/
def nodeAttr : Node → String → Option String
  | .elem _ attrs _, name => alook attrs name
  | .text _, _ => none

/-- Children of a node. -/
def nodeChildren : Node → NodeList
  | .elem _ _ ch => ch
  | .text _ => .nnil

/-- `.html()` of an element (its inner HTML). -/
def innerHTMLOfNode : Node → String
  | .elem _ _ ch => innerHTMLL ch
  | .text _ => ""

/-- The attribute-collection loop of `syncPlaceholderToSettings`: each
allowed attribute with a truthy value is stored in the fresh
`settings.attributes` object, with the first `&quot;` replaced by `\"`. -/
def collectAttrs (allowed : List String) (n : Node) : Fields :=
  allowed.foldl
    (fun acc a =>
      match nodeAttr n a with
      | some v =>
        if v = "" then acc
        else acc.set a (.vStr (jsReplaceFirst v "&quot;" "\\\""))
      | none => acc) .fnil

/-- The `link_text` value stored by `syncPlaceholderToSettings`: with
`doLinkText` set, the inner HTML of the first descendant
`a:not(:has(img))` (undefined when there is none); otherwise `false`. -/
def linkTextValue (cfg : MediaConfig) (n : Node) : Value :=
  if cfg.doLinkText then
    match findAnchorL (nodeChildren n) with
    | some a2 => .vStr (innerHTMLOfNode a2)
    | none => .vUndef
  else .vBool false

/-- Embeds `syncPlaceholderToSettings()` as called with a present
`$placeholder` (as in `setPlaceholder`, which assigns it before calling, so
`getPlaceholder()` returns it immediately): settings are resolved,
`settings.attributes` is rebuilt from the placeholder's allowed attributes,
the attributes→fields sync runs, `link_text` is extracted, the placeholder
base is re-serialized, and the token and key caches are cleared. -/
def syncPlaceholderToSettings (cfg : MediaConfig) (n : Node) (i : Inst) :
    Except String Inst :=
  match getSettings cfg i with
  | .error e => .error e
  | .ok (s, i1) =>
    match syncAttributesToFields cfg false
        (s.set "attributes" (.vObj (collectAttrs cfg.wysiwygAllowedAttributes n))) with
    | .error e => .error e
    | .ok s2 =>
      .ok { i1 with
            settings := some (s2.set "link_text" (linkTextValue cfg n)),
            placeholderBase := outerHTMLN n, token := "", key := "" }

/-- Embeds `setPlaceholder($placeholder)`: the element is stored, the
placeholder base is its outer HTML, and the DOM→settings sync runs. -/
def setPlaceholder (cfg : MediaConfig) (n : Node) (i : Inst) : Except String Inst :=
  syncPlaceholderToSettings cfg n
    { i with placeholder := some n, placeholderBase := outerHTMLN n }

/-- The bare-text wrapping of `getPlaceholderBase`: a fragment whose text
content is as long as its source is a bare text node and gets wrapped in a
`span`. -/
def placeholderFromHtml (cfg : MediaConfig) (html : String) (i1 : Inst) :
    Except String (String × Inst) :=
  if html = "" then .error "Unable to retrieve media html."
  else if (textContentList (cfg.parseHtml html)).length = html.length then
    .ok ("<span>" ++ html ++ "</span>",
      { i1 with placeholderBase := "<span>" ++ html ++ "</span>" })
  else .ok (html, { i1 with placeholderBase := html })

/-- The tag-map lookup of `getPlaceholderBase`: a missing (or falsy) entry
for the key throws the missing-placeholder error. -/
def placeholderBaseFromKey (cfg : MediaConfig) (k : String) (i1 : Inst) :
    Except String (String × Inst) :=
  match alook cfg.tagMap k with
  | none => .error "Unable to retrieve media html."
  | some html => placeholderFromHtml cfg html i1

/-- Embeds `getPlaceholderBase()`: a truthy stored base is returned;
otherwise the global `tagMap` is consulted under `getKey()`. -/
def getPlaceholderBase (cfg : MediaConfig) (i : Inst) :
    Except String (String × Inst) :=
  if i.placeholderBase = "" then
    match getKey cfg i with
    | .error e => .error e
    | .ok (k, i1) => placeholderBaseFromKey cfg k i1
  else .ok (i.placeholderBase, i)

/-- The wrapped-or-plain result of a successful tag-map hit. -/
def wrapIfBare (cfg : MediaConfig) (html : String) : String :=
  if (textContentList (cfg.parseHtml html)).length = html.length then
    "<span>" ++ html ++ "</span>"
  else html

/-- C6: after `setPlaceholder(element)` the instance's token and key are
both reset to the empty string. -/
theorem c6_setPlaceholder_resets (cfg : MediaConfig) (n : Node) (i i2 : Inst)
    (h : setPlaceholder cfg n i = .ok i2) : i2.token = "" ∧ i2.key = "" := by
  unfold setPlaceholder syncPlaceholderToSettings at h
  cases hgs : getSettings cfg
      { i with placeholder := some n, placeholderBase := outerHTMLN n } with
  | error e => rw [hgs] at h; exact absurd h (by simp)
  | ok si =>
    rw [hgs] at h
    obtain ⟨s, i1⟩ := si
    have h2 : (match syncAttributesToFields cfg false
        (s.set "attributes" (.vObj (collectAttrs cfg.wysiwygAllowedAttributes n))) with
      | Except.error e => (Except.error e : Except String Inst)
      | Except.ok s2 =>
        Except.ok { i1 with
                    settings := some (s2.set "link_text" (linkTextValue cfg n)),
                    placeholderBase := outerHTMLN n, token := "", key := "" }) =
        Except.ok i2 := h
    cases hsy : syncAttributesToFields cfg false
        (s.set "attributes" (.vObj (collectAttrs cfg.wysiwygAllowedAttributes n))) with
    | error e => rw [hsy] at h2; exact absurd h2 (by simp)
    | ok s2 =>
      rw [hsy] at h2
      rw [Except.ok.injEq] at h2
      rw [← h2]
      exact ⟨rfl, rfl⟩

/-- Closed witness for C6 on a concrete placeholder and instance. -/
theorem c6_setPlaceholder_resets_witness :
    (⟨"", some (.fcons "attributes" (.vObj .fnil)
        (.fcons "link_text" (.vBool false) .fnil)), "",
      "<div></div>", some (.elem "div" [] .nnil)⟩ : Inst).token = "" ∧
    (⟨"", some (.fcons "attributes" (.vObj .fnil)
        (.fcons "link_text" (.vBool false) .fnil)), "",
      "<div></div>", some (.elem "div" [] .nnil)⟩ : Inst).key = "" :=
  c6_setPlaceholder_resets c4cfg (.elem "div" [] .nnil)
    ⟨"", some .fnil, "k", "x", none⟩ _ rfl

/-- C8: with no stored placeholder base, a missing tag-map entry for
`getKey()` makes `getPlaceholderBase()` throw the missing-placeholder
error; an existing entry is returned, wrapped in a `span` when the
fragment is bare text; a truthy stored base is returned as-is. -/
theorem c8_getPlaceholderBase_spec (cfg : MediaConfig) (ia ib ic : Inst)
    (ia1 ib1 : Inst) (ka kb html : String)
    (hpa : ia.placeholderBase = "") (hka : getKey cfg ia = .ok (ka, ia1))
    (hma : alook cfg.tagMap ka = none)
    (hpb : ib.placeholderBase = "") (hkb : getKey cfg ib = .ok (kb, ib1))
    (hmb : alook cfg.tagMap kb = some html) (hhtml : html ≠ "")
    (hpc : ic.placeholderBase ≠ "") :
    getPlaceholderBase cfg ia = .error "Unable to retrieve media html." ∧
    getPlaceholderBase cfg ib = .ok (wrapIfBare cfg html,
      { ib1 with placeholderBase := wrapIfBare cfg html }) ∧
    getPlaceholderBase cfg ic = .ok (ic.placeholderBase, ic) := by
  refine ⟨?_, ?_, ?_⟩
  · rw [getPlaceholderBase, if_pos hpa, hka]
    show placeholderBaseFromKey cfg ka ia1 = _
    rw [placeholderBaseFromKey, hma]
  · rw [getPlaceholderBase, if_pos hpb, hkb]
    show placeholderBaseFromKey cfg kb ib1 = _
    rw [placeholderBaseFromKey, hmb]
    show placeholderFromHtml cfg html ib1 = _
    rw [placeholderFromHtml, if_neg hhtml, wrapIfBare]
    by_cases hbare : (textContentList (cfg.parseHtml html)).length = html.length
    · rw [if_pos hbare, if_pos hbare]
    · rw [if_neg hbare, if_neg hbare]
  · rw [getPlaceholderBase, if_neg hpc]

/-- Concrete configuration for the C8 witness. -/
def c8cfg : MediaConfig :=
  { tokenSchema := [], wysiwygAllowedAttributes := [], attributeFields := [],
    overridableFields := [], fidTypeMap := [], tagMap := [("k1", "<b>x</b>")],
    doLinkText := false, parseHtml := fun _ => [] }

/-- Closed witness for C8 on concrete instances (cached keys, one key
missing from the tag map, one present, one cached base). -/
theorem c8_getPlaceholderBase_spec_witness :
    getPlaceholderBase c8cfg ⟨"", none, "k0", "", none⟩ =
      .error "Unable to retrieve media html." ∧
    getPlaceholderBase c8cfg ⟨"", none, "k1", "", none⟩ =
      .ok (wrapIfBare c8cfg "<b>x</b>",
        { (⟨"", none, "k1", "", none⟩ : Inst) with
            placeholderBase := wrapIfBare c8cfg "<b>x</b>" }) ∧
    getPlaceholderBase c8cfg ⟨"", none, "", "base", none⟩ =
      .ok ((⟨"", none, "", "base", none⟩ : Inst).placeholderBase,
        ⟨"", none, "", "base", none⟩) :=
  c8_getPlaceholderBase_spec c8cfg ⟨"", none, "k0", "", none⟩
    ⟨"", none, "k1", "", none⟩ ⟨"", none, "", "base", none⟩
    ⟨"", none, "k0", "", none⟩ ⟨"", none, "k1", "", none⟩
    "k0" "k1" "<b>x</b>" rfl rfl rfl rfl rfl rfl
    (by decide) (by decide)

/-! ## Alignment utilities (C7)

`Drupal.media.utils.alignMedia` / `getMediaAlignment` operate on a jQuery
element; the element state they read and write is modeled by `JQElem`. -/

/-- The jQuery element state touched by the alignment utilities: tag name,
`class` attribute, inline `float` style, and the `align`, `float` and
`data-picture-align` attributes. -/
structure JQElem where
  tagName : String
  className : String
  styleFloat : String
  attrAlign : Option String
  attrFloat : Option String
  attrPictureAlign : Option String

/-- Class-attribute tokens (split on spaces, empty pieces dropped). -/
def classTokens (s : String) : List String :=
  (jsSplitSpace s).filter (fun t => !(t = ""))

/-- jQuery `.hasClass(tok)`. -/
def hasClassStr (s tok : String) : Bool := (classTokens s).contains tok

/-- jQuery `.removeClass(tok)` (removal plus whitespace normalization). -/
def removeClassStr (s tok : String) : String :=
  joinSpaceStr ((classTokens s).filter (fun t => !(t = tok)))

/-- jQuery `.addClass(tok)`: appended only when not already present. -/
def addClassStr (s tok : String) : String :=
  if (classTokens s).contains tok then s
  else if s = "" then tok else s ++ " " ++ tok

/-- JS `tagName.toLowerCase()` (character-wise lowercasing). -/
def toLowerStr (s : String) : String := String.mk (s.data.map Char.toLower)

/-- JS regexp line terminators, excluded by `.` in the alignment regex. -/
def isLineTerm (c : Char) : Bool :=
  c = '\n' || c = '\r' || c = Char.ofNat 0x2028 || c = Char.ofNat 0x2029

/-- The half-open slice `s[a..b)`. -/
def sliceChars (s : List Char) (a b : Nat) : List Char := (s.drop a).take (b - a)

/-- The literal part `media-wysiwyg-align-(right|left|center)` of the
alignment regex, tried at position `q` with the alternatives in source
order. -/
def litAt (s : List Char) (q : Nat) : Option String :=
  if "media-wysiwyg-align-".data.isPrefixOf (s.drop q) then
    (if "right".data.isPrefixOf (s.drop (q + 20)) then some "right"
     else if "left".data.isPrefixOf (s.drop (q + 20)) then some "left"
     else if "center".data.isPrefixOf (s.drop (q + 20)) then some "center"
     else none)
  else none

/-- The optional greedy prefix `(?:.*\s+)?` of the alignment regex at start
position `i`: the engine tries the longest `.*` first (largest `j` with
`s[i..j)` free of line terminators), then the longest `\s+` (largest `q`
with `s[j..q)` nonempty whitespace), and succeeds on the first literal
match at `q`. -/
def alignOptA (s : List Char) (i : Nat) : Option String :=
  (List.range (s.length + 1)).reverse.foldl
    (fun acc j =>
      match acc with
      | some r => some r
      | none =>
        if i ≤ j ∧ ((sliceChars s i j).all (fun c => !isLineTerm c)) = true then
          (List.range (s.length + 1)).reverse.foldl
            (fun acc2 q =>
              match acc2 with
              | some r => some r
              | none =>
                if j < q ∧ ((sliceChars s j q).all isJsWs) = true ∧
                    sliceChars s j q ≠ [] then litAt s q
                else none)
            none
        else none)
    none

/-- JS `className.match(alignRe)` restricted to its capture group: the
regex `/(?:.*\s+)?media-wysiwyg-align-(right|left|center)(?:s+.*)?/` is
tried at each start position in order; at each position the engine first
tries the greedy optional prefix, then the bare literal.  (The trailing
`(?:s+.*)?` group is optional and never affects success or the capture.) -/
def getMediaAlignmentClass (s : List Char) : Option String :=
  (List.range (s.length + 1)).foldl
    (fun acc i =>
      match acc with
      | some r => some r
      | none =>
        match alignOptA s i with
        | some r => some r
        | none => litAt s i)
    none

/-- Embeds `Drupal.media.utils.getMediaAlignment($element)`: the class
regex has first priority; `img` and `div` elements fall back to the
`float` style and then the `align` attribute, accepting only `left` and
`right`. -/
def getMediaAlignment (e : JQElem) : Option String :=
  match getMediaAlignmentClass e.className.data with
  | some a => some a
  | none =>
    if toLowerStr e.tagName = "img" ∨ toLowerStr e.tagName = "div" then
      if e.styleFloat = "left" ∨ e.styleFloat = "right" then some e.styleFloat
      else
        match e.attrAlign with
        | some a => if a = "left" ∨ a = "right" then some a else none
        | none => none
    else none

/-- The inner `resetAlignment` helper of `alignMedia`: removes the current
alignment class, the `data-picture-align` and `float` attributes, and
clears the `float` style. -/
def resetAlignmentE (e : JQElem) (current : String) : JQElem :=
  { e with
    className := removeClassStr e.className ("media-wysiwyg-align-" ++ current),
    attrPictureAlign := none, styleFloat := "", attrFloat := none }

/-- The inner `setAlignment` helper of `alignMedia`: adds the alignment
class and, when a media instance is linked to the element, stores the
alignment in its settings.  `Drupal.media.filter.getMediaInstanceFromElement`
is not part of this repository snapshot; modelled from the spec: the
instance linked to the element is passed as the `linked` parameter, `none`
when no instance is found. -/
def setAlignmentE (cfg : MediaConfig) (e : JQElem) (value : String)
    (linked : Option Inst) : Except String (JQElem × Option Inst) :=
  match linked with
  | none =>
    .ok ({ e with
           className := addClassStr e.className ("media-wysiwyg-align-" ++ value) },
      none)
  | some inst =>
    match getSettings cfg inst with
    | .error err => .error err
    | .ok (s, i1) =>
      .ok ({ e with
             className := addClassStr e.className ("media-wysiwyg-align-" ++ value) },
        some { i1 with settings := some (s.set "alignment" (.vStr value)) })

/-- The branch of `alignMedia` taken when `getMediaAlignment` returned a
(truthy) current alignment. -/
def alignWithCurrent (cfg : MediaConfig) (e : JQElem) (cur value : String)
    (toggle : Bool) (linked : Option Inst) :
    Except String (Bool × JQElem × Option Inst) :=
  if cur = value then
    if toggle then .ok (false, resetAlignmentE e cur, linked)
    else .ok (true, e, linked)
  else
    match setAlignmentE cfg (resetAlignmentE e cur) value linked with
    | .error err => .error err
    | .ok (e2, l2) => .ok (true, e2, l2)

/-- Embeds `Drupal.media.utils.alignMedia($element, value, toggle)`:
returns whether the alignment was set to the given value, together with
the updated element and linked instance. -/
def alignMedia (cfg : MediaConfig) (e : JQElem) (value : String)
    (toggle : Bool) (linked : Option Inst) :
    Except String (Bool × JQElem × Option Inst) :=
  if hasClassStr e.className "media-element" = false then .ok (false, e, linked)
  else
    match getMediaAlignment e with
    | some cur => alignWithCurrent cfg e cur value toggle linked
    | none =>
      match setAlignmentE cfg e value linked with
      | .error err => .error err
      | .ok (e2, l2) => .ok (true, e2, l2)

/-- C7: without the `media-element` class, `alignMedia` is a no-op
returning `false`; with the current alignment equal to the value, the
toggle removes the alignment class and returns `false`, while no toggle
changes nothing and returns `true`; with a different current alignment,
the old class is removed, `media-wysiwyg-align-<value>` is added, and
`true` is returned. -/
theorem c7_alignMedia_spec (cfg : MediaConfig) (ea eb ec ed : JQElem)
    (va vb vc vd cur : String) (ta : Bool) (la lb lc : Option Inst)
    (ha1 : hasClassStr ea.className "media-element" = false)
    (hb1 : hasClassStr eb.className "media-element" = true)
    (hb2 : getMediaAlignment eb = some vb)
    (hc1 : hasClassStr ec.className "media-element" = true)
    (hc2 : getMediaAlignment ec = some vc)
    (hd1 : hasClassStr ed.className "media-element" = true)
    (hd2 : getMediaAlignment ed = some cur)
    (hd3 : cur ≠ vd) :
    alignMedia cfg ea va ta la = .ok (false, ea, la) ∧
    alignMedia cfg eb vb true lb = .ok (false, resetAlignmentE eb vb, lb) ∧
    alignMedia cfg ec vc false lc = .ok (true, ec, lc) ∧
    alignMedia cfg ed vd ta none = .ok (true,
      { ed with
        className := addClassStr
          (removeClassStr ed.className ("media-wysiwyg-align-" ++ cur))
          ("media-wysiwyg-align-" ++ vd),
        attrPictureAlign := none, styleFloat := "", attrFloat := none },
      none) := by
  refine ⟨?_, ?_, ?_, ?_⟩
  · rw [alignMedia, if_pos ha1]
  · rw [alignMedia, if_neg (by rw [hb1]; simp), hb2]
    show alignWithCurrent cfg eb vb vb true lb = _
    rw [alignWithCurrent, if_pos rfl, if_pos rfl]
  · rw [alignMedia, if_neg (by rw [hc1]; simp), hc2]
    show alignWithCurrent cfg ec vc vc false lc = _
    rw [alignWithCurrent, if_pos rfl, if_neg (by simp)]
  · rw [alignMedia, if_neg (by rw [hd1]; simp), hd2]
    show alignWithCurrent cfg ed cur vd ta none = _
    rw [alignWithCurrent, if_neg hd3]
    rfl

/-- Closed witness for C7 on concrete elements (one without the marker
class, three aligned left). -/
theorem c7_alignMedia_spec_witness :
    alignMedia c4cfg ⟨"img", "foo", "", none, none, none⟩ "left" true none =
      .ok (false, ⟨"img", "foo", "", none, none, none⟩, none) ∧
    alignMedia c4cfg
        ⟨"img", "media-element media-wysiwyg-align-left", "", none, none, none⟩
        "left" true none =
      .ok (false, resetAlignmentE
        ⟨"img", "media-element media-wysiwyg-align-left", "", none, none, none⟩
        "left", none) ∧
    alignMedia c4cfg
        ⟨"img", "media-element media-wysiwyg-align-left", "", none, none, none⟩
        "left" false none =
      .ok (true,
        ⟨"img", "media-element media-wysiwyg-align-left", "", none, none, none⟩,
        none) ∧
    alignMedia c4cfg
        ⟨"img", "media-element media-wysiwyg-align-left", "", none, none, none⟩
        "right" true none =
      .ok (true,
        { (⟨"img", "media-element media-wysiwyg-align-left", "", none, none,
            none⟩ : JQElem) with
          className := addClassStr
            (removeClassStr "media-element media-wysiwyg-align-left"
              ("media-wysiwyg-align-" ++ "left"))
            ("media-wysiwyg-align-" ++ "right"),
          attrPictureAlign := none, styleFloat := "", attrFloat := none },
        none) :=
  c7_alignMedia_spec c4cfg ⟨"img", "foo", "", none, none, none⟩
    ⟨"img", "media-element media-wysiwyg-align-left", "", none, none, none⟩
    ⟨"img", "media-element media-wysiwyg-align-left", "", none, none, none⟩
    ⟨"img", "media-element media-wysiwyg-align-left", "", none, none, none⟩
    "left" "left" "left" "right" "left" true none none none
    (by decide) (by decide) (by decide) (by decide) (by decide) (by decide)
    (by decide) (by decide)

end Media
